import Mathlib

/-! # cfdk: the interactive context selector

A shallow embedding of `src/main.go` and the properties of its selection loop.

Conventions of the embedding.

* A Go `map[string]Context` is the list of its entries (`ContextMap`); a map has
  no two entries with the same key (`ContextMap.WellFormed`).
* A `for ... range m` statement over a map visits every entry exactly once, in an
  order Go leaves unspecified and that may differ from one `range` statement to
  the next.  A function that ranges over a map therefore takes the enumeration
  the statement produced (a permutation of the entries) as its argument.
* Calls that reach outside the program (termbox, the file system, the log, the
  `fdk` subprocesses) are recorded, in order, in the `trace` of the program
  state; their results are read from the `World`.
* Go `int` is `Int`; cursor values never leave `[-1, len]`, so no overflow.
-/

namespace Cfdk

/-! ## Data model (`main.go` lines 14-35) -/

/-- The Go struct `Context`. -/
structure Context where
  Name : String
  ApplicationID : String
  Domain : String
  CompanyID : Int
  ThemeID : String
  Env : String
  deriving DecidableEq, Repr

/-- The zero value of `Context`, returned by a map lookup of an absent key. -/
def Context.zero : Context := ⟨"", "", "", 0, "", ""⟩

/-- A Go `map[string]Context`, as the list of its entries. -/
abbrev ContextMap := List (String × Context)

/-- No key occurs twice in a Go map. -/
def ContextMap.WellFormed (m : ContextMap) : Prop := (m.map Prod.fst).Nodup

instance (m : ContextMap) : Decidable m.WellFormed := by
  unfold ContextMap.WellFormed; infer_instance

/-- The Go map index expression `m[key]`, with the comma-ok result as `Option`. -/
def ContextMap.lookup (m : ContextMap) (key : String) : Option Context :=
  match m with
  | [] => none
  | (k, c) :: rest => if k = key then some c else ContextMap.lookup rest key

/-- The Go map index expression `m[key]`: the zero value when the key is absent. -/
def ContextMap.index (m : ContextMap) (key : String) : Context :=
  (m.lookup key).getD Context.zero

/-- A decoded JSON value, as held by an `interface{}` after `json.Unmarshal`;
a number is kept as its lexeme. -/
inductive JsonValue where
  | null
  | bool (b : Bool)
  | number (lexeme : String)
  | string (s : String)
  | array (items : List JsonValue)
  | object (fields : List (String × JsonValue))

/-- The Go struct `Theme`. -/
structure Theme where
  ActiveContext : String
  Contexts : ContextMap

/-- The Go struct `Config`. -/
structure Config where
  Theme : Theme
  Partners : List (String × JsonValue)

/-- The zero value of `Config`, the initial value of the global `config`. -/
def Config.zero : Config := ⟨⟨"", []⟩, []⟩

/-! ## `extractUniqueDomains` (lines 111-121) and `updateActiveContext` (lines 147-154) -/

/-- The loop of `extractUniqueDomains` over the entries still to be visited, with
the current `domainSet` (a set, held as the list of its members) and `domains`. -/
def extractUniqueDomainsLoop :
    List (String × Context) → List String → List String → List String
  | [], _, domains => domains
  | (_, context) :: rest, domainSet, domains =>
    if context.Domain ∈ domainSet then
      extractUniqueDomainsLoop rest domainSet domains
    else
      extractUniqueDomainsLoop rest (context.Domain :: domainSet) (domains ++ [context.Domain])

/-- The Go function `extractUniqueDomains`; `contexts` is the enumeration of the
map produced by the `range` statement of line 114. -/
def extractUniqueDomains (contexts : List (String × Context)) : List String :=
  extractUniqueDomainsLoop contexts [] []

/-- The Go function `updateActiveContext` on the global `config`; `contexts` is the
enumeration of `config.Theme.Contexts` produced by the `range` statement of
line 148.  When no entry matches, `config` is returned untouched. -/
def updateActiveContext (contexts : List (String × Context)) (config : Config)
    (selectedDomain : String) : Config :=
  match contexts with
  | [] => config
  | (key, context) :: rest =>
    if context.Domain = selectedDomain then
      { config with Theme := { config.Theme with ActiveContext := key } }
    else
      updateActiveContext rest config selectedDomain

/-! ## The world outside the program -/

/-- The keys the event loop distinguishes (`ev.Key`); every other key is `other`. -/
inductive Key where
  | ArrowUp | ArrowDown | Enter | Esc | CtrlC | other
  deriving DecidableEq, Repr

/-- A termbox event, by `ev.Type`: `EventKey`, `EventError` (with `ev.Err`), or any
other type (resize, mouse, interrupt, ...). -/
inductive Event where
  | key (k : Key)
  | error (err : String)
  | other
  deriving DecidableEq, Repr

/-- The two cell attributes the program draws with: `termbox.ColorDefault` and
`termbox.ColorGreen|termbox.AttrBold`. -/
inductive Attribute where
  | ColorDefault
  | ColorGreenBold
  deriving DecidableEq, Repr

/-- A call that leaves the program, as recorded in the trace. -/
inductive Effect where
  | termboxInit
  | termboxClose
  | termboxClear
  | termboxSetCell (x y : Int) (ch : Char) (fg bg : Attribute)
  | termboxFlush
  | readFile (filename : String)
  | writeConfig (filename : String) (config : Config)
  | logPrintf (msg : String)
  | logFatalf (msg : String)
  | stdout (text : String)
  | runSetEnv (envName : String)
  | runFDKLoginCommand

/-- What the environment answers during one run of the program. -/
structure World where
  /-- The error of `rootCmd.Execute` itself, which then does not call `Run`. -/
  executeErr : Option String
  /-- The error of `termbox.Init`. -/
  initErr : Option String
  /-- The two results of `readConfig(".fdk/context.json")`. -/
  readConfig : Config × Option String
  /-- The enumeration produced by the `range` of `extractUniqueDomains`. -/
  rangeExtract : List (String × Context)
  /-- The enumeration produced by the `range` of `updateActiveContext`. -/
  rangeUpdate : List (String × Context)
  /-- The error of `writeConfig`. -/
  writeErr : Option String
  /-- The error of `runSetEnv`. -/
  setEnvErr : Option String
  /-- The error of `runFDKLoginCommand`. -/
  loginErr : Option String
  /-- The events `termbox.PollEvent` delivers, in order. -/
  events : List Event
  /-- Whether `rootCmd.Execute` answers the command line itself (the flag `--help`
  or `-h`): it then prints the usage and returns nil without calling `Run`. -/
  helpRequested : Bool := false

/-- The loaded map is a Go map and both `range` statements enumerate it. -/
def World.Consistent (w : World) : Prop :=
  ContextMap.WellFormed w.readConfig.1.Theme.Contexts ∧
  w.rangeExtract.Perm w.readConfig.1.Theme.Contexts ∧
  w.rangeUpdate.Perm w.readConfig.1.Theme.Contexts

/-- The package-level variables and the trace of calls made so far. -/
structure State where
  selectedOption : String
  config : Config
  exit : Bool
  trace : List Effect

/-- The state at program start: every global holds its zero value. -/
def State.init : State := ⟨"", Config.zero, false, []⟩

/-- Record one call. -/
def State.emit (s : State) (e : Effect) : State := { s with trace := s.trace ++ [e] }

/-- Record a sequence of calls. -/
def State.emitAll (s : State) (es : List Effect) : State := { s with trace := s.trace ++ es }

/-! ## Rendering (lines 123-145) -/

/-- The loop of `tbprint` over the runes of `msg` still to be drawn. -/
def tbprintLoop (x y : Int) (fg bg : Attribute) : List Char → List Effect
  | [] => []
  | c :: rest => Effect.termboxSetCell x y c fg bg :: tbprintLoop (x + 1) y fg bg rest

/-- The Go function `tbprint`. -/
def tbprint (x y : Int) (fg bg : Attribute) (msg : String) : List Effect :=
  tbprintLoop x y fg bg msg.toList

/-- The Go function `printOption`. -/
def printOption (option : String) (index selected : Int) : List Effect :=
  if index = selected then
    tbprint 0 index Attribute.ColorGreenBold Attribute.ColorDefault ("> " ++ option)
  else
    tbprint 0 index Attribute.ColorDefault Attribute.ColorDefault ("  " ++ option)

/-- The loop of `printOptions` from index `i` over the options still to be drawn. -/
def printOptionsLoop (selected : Int) : Int → List String → List Effect
  | _, [] => []
  | i, option :: rest => printOption option i selected ++ printOptionsLoop selected (i + 1) rest

/-- The Go function `printOptions`. -/
def printOptions (options : List String) (selected : Int) : List Effect :=
  [Effect.termboxClear] ++ printOptionsLoop selected 0 options ++ [Effect.termboxFlush]

/-! ## The event loop of `rootCmd.Run` (lines 40-86) -/

/-- The Go index expression `options[selected]`; `none` is the run-time panic
"index out of range". -/
def indexOption (options : List String) (selected : Int) : Option String :=
  if selected < 0 then none else options.get? selected.toNat

/-- How one iteration of the loop, or the whole of `Run`, ends. -/
inductive Flow where
  /-- The `switch` falls through to the next iteration, with this cursor. -/
  | next (selected : Int)
  /-- A `return` statement. -/
  | returned
  /-- The call `log.Fatalf`, which ends the process with `os.Exit(1)`. -/
  | fatal
  /-- A run-time panic. -/
  | panicked
  /-- The call `termbox.PollEvent` has no event to deliver. -/
  | awaiting
  deriving DecidableEq, Repr

/-- The `switch` of lines 57-84 on the event `ev`, at cursor `selected`. -/
def handleEvent (w : World) (options : List String) (selected : Int) (s : State)
    (ev : Event) : Flow × State :=
  match ev with
  | Event.key Key.ArrowUp =>
    if selected > 0 then (Flow.next (selected - 1), s) else (Flow.next selected, s)
  | Event.key Key.ArrowDown =>
    if selected < (options.length : Int) - 1 then (Flow.next (selected + 1), s)
    else (Flow.next selected, s)
  | Event.key Key.Enter =>
    match indexOption options selected with
    | none => (Flow.panicked, s)
    | some option =>
      let s₁ : State := { s with selectedOption := option }
      let s₂ : State :=
        { s₁ with config := updateActiveContext w.rangeUpdate s₁.config s₁.selectedOption }
      let s₃ := s₂.emit (Effect.writeConfig ".fdk/context.json" s₂.config)
      match w.writeErr with
      | some err => (Flow.fatal, s₃.emit (Effect.logFatalf ("failed to write config: " ++ err)))
      | none => (Flow.returned, s₃)
  | Event.key Key.Esc => (Flow.returned, { s with exit := true })
  | Event.key Key.CtrlC => (Flow.returned, { s with exit := true })
  | Event.key Key.other => (Flow.next selected, s)
  | Event.error err => (Flow.returned, s.emit (Effect.logPrintf ("termbox event error: " ++ err)))
  | Event.other => (Flow.next selected, s)

/-- The `for` loop of lines 55-85 on the events still to come. -/
def eventLoop (w : World) (options : List String) : List Event → Int → State → Flow × State
  | [], selected, s => (Flow.awaiting, s.emitAll (printOptions options selected))
  | ev :: rest, selected, s =>
    match handleEvent w options selected (s.emitAll (printOptions options selected)) ev with
    | (Flow.next selected', s') => eventLoop w options rest selected' s'
    | r => r

/-- The function `rootCmd.Run`.  The deferred `termbox.Close` runs when the
function returns or panics, and does not run when `log.Fatalf` exits the process. -/
def rootCmdRun (w : World) (s : State) : Flow × State :=
  let s₁ := s.emit Effect.termboxInit
  match w.initErr with
  | some err => (Flow.fatal, s₁.emit (Effect.logFatalf ("failed to initialize termbox: " ++ err)))
  | none =>
    let s₂ : State := { s₁.emit (Effect.readFile ".fdk/context.json") with config := w.readConfig.1 }
    match w.readConfig.2 with
    | some err => (Flow.fatal, s₂.emit (Effect.logFatalf ("failed to read config: " ++ err)))
    | none =>
      let options := extractUniqueDomains w.rangeExtract
      match eventLoop w options w.events 0 s₂ with
      | (Flow.fatal, s₃) => (Flow.fatal, s₃)
      | (Flow.awaiting, s₃) => (Flow.awaiting, s₃)
      | (flow, s₃) => (flow, s₃.emit Effect.termboxClose)

/-! ## `main` (lines 173-197) -/

/-- How the process ends. -/
inductive Termination where
  /-- The function `main` returns: exit status 0. -/
  | success
  /-- The call `os.Exit(1)`, directly or through `log.Fatalf`. -/
  | failure
  /-- An unrecovered panic. -/
  | crashed
  /-- The process is still waiting for input. -/
  | awaiting
  deriving DecidableEq, Repr

/-- Lines 184-195 of `main`: the calls of the two `fdk` commands. -/
def runCommands (w : World) (s : State) : Termination × State :=
  if !s.exit then
    let afterSetEnv : Option String × State :=
      if s.selectedOption ≠ "" then
        let envName := (ContextMap.index s.config.Theme.Contexts s.config.Theme.ActiveContext).Env
        (w.setEnvErr, (s.emit (Effect.stdout (envName ++ "\n"))).emit (Effect.runSetEnv envName))
      else (none, s)
    match afterSetEnv with
    | (some err, s₁) =>
      (Termination.failure, s₁.emit (Effect.logFatalf ("failed to set environment: " ++ err)))
    | (none, s₁) =>
      let s₂ := s₁.emit Effect.runFDKLoginCommand
      match w.loginErr with
      | some err =>
        (Termination.failure,
          s₂.emit (Effect.logFatalf ("failed to run fdk login command: " ++ err)))
      | none => (Termination.success, s₂)
  else (Termination.success, s)

/-- Lines 178-195 of `main`: what follows a normal return of `rootCmd.Execute`. -/
def afterExecute (w : World) (s : State) : Termination × State :=
  let s₁ :=
    if s.selectedOption ≠ "" then
      s.emit (Effect.stdout ("You selected: \x1b[32m" ++ s.selectedOption ++ "\x1b[0m\n"))
    else s
  runCommands w s₁

/-- The function `main`.  The call `rootCmd.Execute` returns an error without calling
`Run`, or answers the command line itself and returns nil without calling `Run`
(the usage text it prints is not recorded), or calls `Run`. -/
def main (w : World) : Termination × State :=
  match w.executeErr with
  | some err => (Termination.failure, State.init.emit (Effect.stdout (err ++ "\n")))
  | none =>
    if w.helpRequested then afterExecute w State.init
    else
      match rootCmdRun w State.init with
      | (Flow.returned, s) => afterExecute w s
      | (Flow.fatal, s) => (Termination.failure, s)
      | (Flow.panicked, s) => (Termination.crashed, s)
      | (_, s) => (Termination.awaiting, s)

/-! ## Vocabulary of the properties -/

/-- The list `domains` with every later repetition of a string removed: the first
occurrences, in order. -/
def removeLaterRepetitions : List String → List String
  | [] => []
  | d :: rest => d :: (removeLaterRepetitions rest).filter (fun x => x ≠ d)

/-- The documents handed to `writeConfig`, in order of the calls. -/
def writtenConfigs : List Effect → List Config
  | [] => []
  | Effect.writeConfig _ config :: rest => config :: writtenConfigs rest
  | _ :: rest => writtenConfigs rest

/-- The calls of the set-environment and login operations, in order. -/
def commandsRun : List Effect → List Effect
  | [] => []
  | Effect.runSetEnv envName :: rest => Effect.runSetEnv envName :: commandsRun rest
  | Effect.runFDKLoginCommand :: rest => Effect.runFDKLoginCommand :: commandsRun rest
  | _ :: rest => commandsRun rest

/-- The text the program writes to standard output, in order. -/
def printed : List Effect → List String
  | [] => []
  | Effect.stdout text :: rest => text :: printed rest
  | _ :: rest => printed rest

/-- The calls that only draw: `Clear`, `SetCell` and `Flush`. -/
def Effect.isDraw : Effect → Bool
  | Effect.termboxClear => true
  | Effect.termboxSetCell _ _ _ _ _ => true
  | Effect.termboxFlush => true
  | _ => false

/-- The move-up and move-down events. -/
def Event.isMove : Event → Bool
  | Event.key Key.ArrowUp => true
  | Event.key Key.ArrowDown => true
  | _ => false

/-- The events after which the loop polls again: the moves, the keys without a
`case`, and the event types without a `case`. -/
def Event.keepsRunning : Event → Bool
  | Event.key Key.ArrowUp => true
  | Event.key Key.ArrowDown => true
  | Event.key Key.other => true
  | Event.other => true
  | _ => false

/-- The explicit cancel keys, `Esc` and `Ctrl-C`. -/
def Event.isCancelKey : Event → Bool
  | Event.key Key.Esc => true
  | Event.key Key.CtrlC => true
  | _ => false

/-- The input-error events. -/
def Event.isError : Event → Bool
  | Event.error _ => true
  | _ => false

/-- The calls that acquire and release the display surface, `termbox.Init` and
`termbox.Close`, in order. -/
def surfaceCalls : List Effect → List Effect
  | [] => []
  | Effect.termboxInit :: rest => Effect.termboxInit :: surfaceCalls rest
  | Effect.termboxClose :: rest => Effect.termboxClose :: surfaceCalls rest
  | _ :: rest => surfaceCalls rest

/-- The cells a sequence of calls sets on row `y`, in order of the calls: column,
rune, foreground and background. -/
def rowCells (y : Int) : List Effect → List (Int × Char × Attribute × Attribute)
  | [] => []
  | Effect.termboxSetCell x y' ch fg bg :: rest =>
    if y' = y then (x, ch, fg, bg) :: rowCells y rest else rowCells y rest
  | _ :: rest => rowCells y rest

/-- The cells that show the runes of a text from column `x` on, one column each,
with foreground `fg` and background `bg`. -/
def textCells (x : Int) (fg bg : Attribute) : List Char → List (Int × Char × Attribute × Attribute)
  | [] => []
  | c :: rest => (x, c, fg, bg) :: textCells (x + 1) fg bg rest

/-- The cursor of every `Running` state the loop goes through on `events`, from
the cursor `selected`: the value of `selected` at the head of each iteration. -/
def cursorsVisited (w : World) (options : List String) : List Event → Int → State → List Int
  | [], selected, _ => [selected]
  | ev :: rest, selected, s =>
    selected ::
      match handleEvent w options selected (s.emitAll (printOptions options selected)) ev with
      | (Flow.next selected', s') => cursorsVisited w options rest selected' s'
      | _ => []

/-! ## Example data -/

/-- The entry `ctxA` of the example of the specification. -/
def exampleA : Context := ⟨"a", "app", "prod-us", 1, "theme", "envA"⟩

/-- The entry `ctxB` of the example of the specification. -/
def exampleB : Context := ⟨"b", "app", "prod-eu", 2, "theme", "envB"⟩

/-- The entry `ctxC` of the example of the specification. -/
def exampleC : Context := ⟨"c", "app", "prod-us", 3, "theme", "envC"⟩

/-- The context set of the example of the specification. -/
def exampleContexts : ContextMap := [("ctxA", exampleA), ("ctxB", exampleB), ("ctxC", exampleC)]

/-- A document over the example context set, with a stale active context. -/
def exampleConfig : Config := ⟨⟨"stale", exampleContexts⟩, [("partner", JsonValue.null)]⟩

/-- A run on the example document in which nothing fails: extraction enumerates the
map as `ctxA, ctxB, ctxC`, resolution enumerates it as `rangeUpdate`. -/
def exampleWorld (rangeUpdate : List (String × Context)) (events : List Event) : World :=
  { executeErr := none, initErr := none, readConfig := (exampleConfig, none),
    rangeExtract := exampleContexts, rangeUpdate := rangeUpdate,
    writeErr := none, setEnvErr := none, loginErr := none, events := events }

/-- The state in which the loop runs on the example document. -/
def exampleState : State := { State.init with config := exampleConfig }

/-- A run on a document without contexts, in which nothing fails. -/
def emptyWorld (events : List Event) : World :=
  { executeErr := none, initErr := none, readConfig := (⟨⟨"", []⟩, []⟩, none),
    rangeExtract := [], rangeUpdate := [],
    writeErr := none, setEnvErr := none, loginErr := none, events := events }

/-- A context set whose only entry has the empty string as its domain. -/
def emptyDomainContexts : ContextMap := [("ctxA", ⟨"a", "app", "", 1, "theme", "envA"⟩)]

/-- A run on a document over `emptyDomainContexts`, in which nothing fails. -/
def emptyDomainWorld (events : List Event) : World :=
  { executeErr := none, initErr := none,
    readConfig := (⟨⟨"", emptyDomainContexts⟩, []⟩, none),
    rangeExtract := emptyDomainContexts, rangeUpdate := emptyDomainContexts,
    writeErr := none, setEnvErr := none, loginErr := none, events := events }

/-- The context set of the example, enumerated as `ctxB, ctxA, ctxC`. -/
def exampleShuffled : List (String × Context) :=
  [("ctxB", exampleB), ("ctxA", exampleA), ("ctxC", exampleC)]

/-- A run on the example document in which `writeConfig` fails. -/
def writeFailureWorld (events : List Event) : World :=
  { exampleWorld exampleContexts events with writeErr := some "permission denied" }

/-- A run on the example document in which `rootCmd.Execute` answers the command
line itself. -/
def helpWorld : World :=
  { exampleWorld exampleContexts [] with helpRequested := true }

/-- A run in which `readConfig` fails: the file is missing. -/
def readFailureWorld (events : List Event) : World :=
  { exampleWorld [] events with
    readConfig := (Config.zero, some "no such file or directory"), rangeExtract := [] }

/-! ## Lemmas on `extractUniqueDomains` -/

theorem indexOf_filter_lt_iff (p : String → Bool) (a b : String) (ha : p a = true)
    (hb : p b = true) (l : List String) :
    ((l.filter p).indexOf a < (l.filter p).indexOf b ↔ l.indexOf a < l.indexOf b) := by
  induction l with
  | nil => simp
  | cons y t ih =>
    by_cases hy : p y = true
    · rw [List.filter_cons_of_pos hy]
      by_cases hay : y = a
      · by_cases hby : y = b
        · simp [List.indexOf_cons_eq _ hay, List.indexOf_cons_eq _ hby]
        · simp [List.indexOf_cons_eq _ hay, List.indexOf_cons_ne _ hby]
      · by_cases hby : y = b
        · simp [List.indexOf_cons_ne _ hay, List.indexOf_cons_eq _ hby]
        · simp [List.indexOf_cons_ne _ hay, List.indexOf_cons_ne _ hby, ih]
    · rw [List.filter_cons_of_neg hy]
      have hay : y ≠ a := fun h => hy (h ▸ ha)
      have hby : y ≠ b := fun h => hy (h ▸ hb)
      simp [List.indexOf_cons_ne _ hay, List.indexOf_cons_ne _ hby, ih]

/-- Removing later repetitions keeps every string that occurs. -/
theorem mem_removeLaterRepetitions (l : List String) (d : String) :
    d ∈ removeLaterRepetitions l ↔ d ∈ l := by
  induction l with
  | nil => simp [removeLaterRepetitions]
  | cons x t ih =>
    simp only [removeLaterRepetitions, List.mem_cons, List.mem_filter, ih]
    by_cases h : d = x <;> simp [h]

/-- No string occurs twice once later repetitions are removed. -/
theorem nodup_removeLaterRepetitions (l : List String) : (removeLaterRepetitions l).Nodup := by
  induction l with
  | nil => simp [removeLaterRepetitions]
  | cons x t ih =>
    simp only [removeLaterRepetitions, List.nodup_cons]
    exact ⟨by simp [List.mem_filter], ih.filter _⟩

/-- Removing later repetitions keeps the order of first occurrences. -/
theorem indexOf_removeLaterRepetitions_lt_iff (l : List String) (a b : String) :
    ((removeLaterRepetitions l).indexOf a < (removeLaterRepetitions l).indexOf b ↔
      l.indexOf a < l.indexOf b) := by
  induction l with
  | nil => simp [removeLaterRepetitions]
  | cons x t ih =>
    simp only [removeLaterRepetitions]
    by_cases hax : x = a
    · by_cases hbx : x = b
      · simp [List.indexOf_cons_eq _ hax, List.indexOf_cons_eq _ hbx]
      · simp [List.indexOf_cons_eq _ hax, List.indexOf_cons_ne _ hbx]
    · by_cases hbx : x = b
      · simp [List.indexOf_cons_ne _ hax, List.indexOf_cons_eq _ hbx]
      · simp only [List.indexOf_cons_ne _ hax, List.indexOf_cons_ne _ hbx, Nat.succ_lt_succ_iff]
        rw [indexOf_filter_lt_iff _ a b (by simpa using Ne.symm hax) (by simpa using Ne.symm hbx)]
        exact ih

/-- The loop of `extractUniqueDomains`, started with `domainSet` holding the members of
`domains`, appends the first occurrences of the domains not yet in `domains`. -/
theorem extractUniqueDomainsLoop_eq (rest : List (String × Context)) :
    ∀ (domainSet domains : List String), (∀ d, d ∈ domainSet ↔ d ∈ domains) →
      extractUniqueDomainsLoop rest domainSet domains =
        domains ++ (removeLaterRepetitions (rest.map fun e => e.2.Domain)).filter
          (fun d => decide (d ∉ domains)) := by
  induction rest with
  | nil => intro domainSet domains _; simp [extractUniqueDomainsLoop, removeLaterRepetitions]
  | cons e t ih =>
    intro domainSet domains hset
    obtain ⟨key, context⟩ := e
    simp only [extractUniqueDomainsLoop, List.map_cons, removeLaterRepetitions]
    by_cases hmem : context.Domain ∈ domainSet
    · have hd : context.Domain ∈ domains := (hset _).1 hmem
      rw [if_pos hmem, ih domainSet domains hset, List.filter_cons_of_neg (by simpa using hd),
        List.filter_filter]
      congr 1
      apply List.filter_congr
      intro x _
      by_cases hx : x ∈ domains
      · simp [hx]
      · have : x ≠ context.Domain := fun h => hx (h ▸ hd)
        simp [hx, this]
    · have hd : context.Domain ∉ domains := fun h => hmem ((hset _).2 h)
      rw [if_neg hmem, ih (context.Domain :: domainSet) (domains ++ [context.Domain])
        (by intro d; simp [hset d, or_comm]),
        List.filter_cons_of_pos (by simpa using hd), List.filter_filter]
      simp only [List.append_assoc, List.singleton_append]
      congr 2
      apply List.filter_congr
      intro x _
      by_cases hx : x ∈ domains <;> by_cases hx2 : x = context.Domain <;> simp [hx, hx2]

/-- The function `extractUniqueDomains` computes the first occurrences of the domains. -/
theorem extractUniqueDomains_eq (contexts : List (String × Context)) :
    extractUniqueDomains contexts =
      removeLaterRepetitions (contexts.map fun e => e.2.Domain) := by
  unfold extractUniqueDomains
  rw [extractUniqueDomainsLoop_eq contexts [] [] (by simp)]
  simp

/-! ## Lemmas on `updateActiveContext` and map lookup -/

/-- The scan of `updateActiveContext` stops at the first entry of its enumeration that
carries the selected domain. -/
theorem updateActiveContext_scan (contexts : List (String × Context)) (config : Config)
    (selectedDomain : String) (h : ∃ e ∈ contexts, e.2.Domain = selectedDomain) :
    ∃ before key context after,
      contexts = before ++ (key, context) :: after ∧
      (∀ e ∈ before, e.2.Domain ≠ selectedDomain) ∧
      context.Domain = selectedDomain ∧
      (updateActiveContext contexts config selectedDomain).Theme.ActiveContext = key := by
  induction contexts with
  | nil => simp at h
  | cons e t ih =>
    obtain ⟨key, context⟩ := e
    by_cases hd : context.Domain = selectedDomain
    · exact ⟨[], key, context, t, rfl, by simp, hd, by simp [updateActiveContext, hd]⟩
    · have ht : ∃ e ∈ t, e.2.Domain = selectedDomain := by
        obtain ⟨e, he, hed⟩ := h
        rcases List.mem_cons.1 he with rfl | he
        · exact absurd hed hd
        · exact ⟨e, he, hed⟩
      obtain ⟨before, k, c, after, ht, hb, hc, hk⟩ := ih ht
      refine ⟨(key, context) :: before, k, c, after, by simp [ht], ?_, hc, ?_⟩
      · intro e he
        rcases List.mem_cons.1 he with rfl | he
        · exact hd
        · exact hb e he
      · simpa [updateActiveContext, hd] using hk

/-- The function `updateActiveContext` assigns `ActiveContext` only. -/
theorem updateActiveContext_frame (contexts : List (String × Context)) (config : Config)
    (selectedDomain : String) :
    (updateActiveContext contexts config selectedDomain).Theme.Contexts = config.Theme.Contexts ∧
    (updateActiveContext contexts config selectedDomain).Partners = config.Partners := by
  induction contexts with
  | nil => simp [updateActiveContext]
  | cons e t ih =>
    obtain ⟨key, context⟩ := e
    by_cases hd : context.Domain = selectedDomain <;> simp [updateActiveContext, hd, ih]

/-- In a Go map, the index expression at the key of an entry yields that entry. -/
theorem lookup_of_mem (m : ContextMap) (hwf : m.WellFormed) (key : String) (context : Context)
    (h : (key, context) ∈ m) : m.lookup key = some context := by
  induction m with
  | nil => simp at h
  | cons e t ih =>
    obtain ⟨k, c⟩ := e
    unfold ContextMap.WellFormed at hwf
    simp only [List.map_cons, List.nodup_cons] at hwf
    rcases List.mem_cons.1 h with heq | ht
    · cases heq
      simp [ContextMap.lookup]
    · have hne : k ≠ key := by
        intro hk
        apply hwf.1
        rw [hk]
        exact List.mem_map_of_mem Prod.fst ht
      simp only [ContextMap.lookup, if_neg hne]
      exact ih hwf.2 ht

/-! ## Lemmas on the trace and the event loop -/

@[simp]
theorem State.emitAll_config (s : State) (es : List Effect) :
    (s.emitAll es).config = s.config := rfl
@[simp]
theorem State.emitAll_selectedOption (s : State) (es : List Effect) :
    (s.emitAll es).selectedOption = s.selectedOption := rfl
@[simp]
theorem State.emitAll_exit (s : State) (es : List Effect) :
    (s.emitAll es).exit = s.exit := rfl
@[simp]
theorem State.emitAll_trace (s : State) (es : List Effect) :
    (s.emitAll es).trace = s.trace ++ es := rfl
@[simp]
theorem State.emit_config (s : State) (e : Effect) : (s.emit e).config = s.config := rfl
@[simp]
theorem State.emit_selectedOption (s : State) (e : Effect) :
    (s.emit e).selectedOption = s.selectedOption := rfl
@[simp]
theorem State.emit_exit (s : State) (e : Effect) : (s.emit e).exit = s.exit := rfl
@[simp]
theorem State.emit_trace (s : State) (e : Effect) :
    (s.emit e).trace = s.trace ++ [e] := rfl

/-- Recording two sequences of calls is recording their concatenation. -/
theorem State.emitAll_emitAll (s : State) (es fs : List Effect) :
    (s.emitAll es).emitAll fs = s.emitAll (es ++ fs) := by
  simp [State.emitAll]

/-- The documents written by a concatenated trace. -/
theorem writtenConfigs_append (es fs : List Effect) :
    writtenConfigs (es ++ fs) = writtenConfigs es ++ writtenConfigs fs := by
  induction es with
  | nil => rfl
  | cons e t ih => cases e <;> simp [writtenConfigs, ih]

/-- The commands run by a concatenated trace. -/
theorem commandsRun_append (es fs : List Effect) :
    commandsRun (es ++ fs) = commandsRun es ++ commandsRun fs := by
  induction es with
  | nil => rfl
  | cons e t ih => cases e <;> simp [commandsRun, ih]

/-- The text printed by a concatenated trace. -/
theorem printed_append (es fs : List Effect) :
    printed (es ++ fs) = printed es ++ printed fs := by
  induction es with
  | nil => rfl
  | cons e t ih => cases e <;> simp [printed, ih]

/-- Drawing writes no document. -/
theorem writtenConfigs_of_isDraw (es : List Effect) (h : ∀ e ∈ es, e.isDraw = true) :
    writtenConfigs es = [] := by
  induction es with
  | nil => rfl
  | cons e t ih =>
    have he := h e (List.mem_cons_self _ _)
    have ht := ih (fun x hx => h x (List.mem_cons_of_mem _ hx))
    cases e <;> simp_all [writtenConfigs, Effect.isDraw]

/-- Drawing runs no command. -/
theorem commandsRun_of_isDraw (es : List Effect) (h : ∀ e ∈ es, e.isDraw = true) :
    commandsRun es = [] := by
  induction es with
  | nil => rfl
  | cons e t ih =>
    have he := h e (List.mem_cons_self _ _)
    have ht := ih (fun x hx => h x (List.mem_cons_of_mem _ hx))
    cases e <;> simp_all [commandsRun, Effect.isDraw]

/-- Drawing prints nothing to standard output. -/
theorem printed_of_isDraw (es : List Effect) (h : ∀ e ∈ es, e.isDraw = true) :
    printed es = [] := by
  induction es with
  | nil => rfl
  | cons e t ih =>
    have he := h e (List.mem_cons_self _ _)
    have ht := ih (fun x hx => h x (List.mem_cons_of_mem _ hx))
    cases e <;> simp_all [printed, Effect.isDraw]

/-- The function `tbprint` only draws. -/
theorem tbprintLoop_isDraw (fg bg : Attribute) (cs : List Char) :
    ∀ (x y : Int), ∀ e ∈ tbprintLoop x y fg bg cs, e.isDraw = true := by
  induction cs with
  | nil => intro x y e he; simp [tbprintLoop] at he
  | cons c t ih =>
    intro x y e he
    simp only [tbprintLoop, List.mem_cons] at he
    rcases he with rfl | he
    · rfl
    · exact ih _ _ e he

/-- The function `printOption` only draws. -/
theorem printOption_isDraw (option : String) (index selected : Int) :
    ∀ e ∈ printOption option index selected, e.isDraw = true := by
  unfold printOption tbprint
  split <;> exact tbprintLoop_isDraw _ _ _ _ _

/-- The loop of `printOptions` only draws. -/
theorem printOptionsLoop_isDraw (selected : Int) (options : List String) :
    ∀ (i : Int), ∀ e ∈ printOptionsLoop selected i options, e.isDraw = true := by
  induction options with
  | nil => intro i e he; simp [printOptionsLoop] at he
  | cons o t ih =>
    intro i e he
    simp only [printOptionsLoop, List.mem_append] at he
    rcases he with he | he
    · exact printOption_isDraw _ _ _ e he
    · exact ih _ e he

/-- The function `printOptions` only draws. -/
theorem printOptions_isDraw (options : List String) (selected : Int) :
    ∀ e ∈ printOptions options selected, e.isDraw = true := by
  intro e he
  simp only [printOptions, List.mem_append, List.mem_singleton] at he
  rcases he with (rfl | he) | rfl
  · rfl
  · exact printOptionsLoop_isDraw _ _ _ e he
  · rfl

/-- A prefix of events that keep the loop running only draws. -/
theorem eventLoop_keepsRunning_prefix (w : World) (options : List String)
    (before : List Event) (hb : ∀ e ∈ before, e.keepsRunning = true) (rest : List Event) :
    ∀ (selected : Int) (s : State), ∃ (selected' : Int) (frames : List Effect),
      (∀ e ∈ frames, e.isDraw = true) ∧
      eventLoop w options (before ++ rest) selected s =
        eventLoop w options rest selected' (s.emitAll frames) := by
  induction before with
  | nil => intro selected s; exact ⟨selected, [], by simp, by simp [State.emitAll]⟩
  | cons ev t ih =>
    intro selected s
    have hev := hb ev (List.mem_cons_self _ _)
    have ht := ih (fun x hx => hb x (List.mem_cons_of_mem _ hx))
    have step : ∃ sel₁, handleEvent w options selected
        (s.emitAll (printOptions options selected)) ev =
        (Flow.next sel₁, s.emitAll (printOptions options selected)) := by
      cases ev with
      | key k =>
        cases k <;> simp [Event.keepsRunning] at hev
        · simp only [handleEvent]; split <;> exact ⟨_, rfl⟩
        · simp only [handleEvent]; split <;> exact ⟨_, rfl⟩
        · exact ⟨_, rfl⟩
      | error err => simp [Event.keepsRunning] at hev
      | other => exact ⟨_, rfl⟩
    obtain ⟨sel₁, hstep⟩ := step
    obtain ⟨sel₂, frames, hdraw, heq⟩ := ht sel₁ (s.emitAll (printOptions options selected))
    refine ⟨sel₂, printOptions options selected ++ frames, ?_, ?_⟩
    · intro e he
      rcases List.mem_append.1 he with he | he
      · exact printOptions_isDraw _ _ e he
      · exact hdraw e he
    · rw [← State.emitAll_emitAll, ← heq]
      simp only [List.cons_append, eventLoop, hstep]
      rfl

/-- A move keeps the loop running. -/
theorem isMove_keepsRunning (e : Event) (h : e.isMove = true) : e.keepsRunning = true := by
  cases e with
  | key k => cases k <;> simp_all [Event.isMove, Event.keepsRunning]
  | error err => simp [Event.isMove] at h
  | other => rfl

/-- What one event does to the globals and to the documents written: either
nothing, or one confirmed option. -/
theorem handleEvent_effect (w : World) (options : List String) (selected : Int) (s : State)
    (ev : Event) :
    ((handleEvent w options selected s ev).2.config = s.config ∧
      (handleEvent w options selected s ev).2.selectedOption = s.selectedOption ∧
      writtenConfigs (handleEvent w options selected s ev).2.trace = writtenConfigs s.trace) ∨
    (ev = Event.key Key.Enter ∧
      (∃ d, indexOption options selected = some d ∧
        (handleEvent w options selected s ev).2.selectedOption = d ∧
        (handleEvent w options selected s ev).2.config =
          updateActiveContext w.rangeUpdate s.config d ∧
        writtenConfigs (handleEvent w options selected s ev).2.trace =
          writtenConfigs s.trace ++ [updateActiveContext w.rangeUpdate s.config d]) ∧
      ((handleEvent w options selected s ev).1 = Flow.returned ∨
        (handleEvent w options selected s ev).1 = Flow.fatal)) := by
  cases ev with
  | key k =>
    cases k with
    | ArrowUp => left; simp only [handleEvent]; split <;> simp
    | ArrowDown => left; simp only [handleEvent]; split <;> simp
    | Enter =>
      cases hidx : indexOption options selected with
      | none => left; simp [handleEvent, hidx]
      | some d =>
        right
        refine ⟨rfl, ⟨d, rfl, ?_⟩, ?_⟩
        · cases hw : w.writeErr <;>
            simp [handleEvent, hidx, hw, writtenConfigs_append, writtenConfigs]
        · cases hw : w.writeErr <;> simp [handleEvent, hidx, hw]
    | Esc => left; simp [handleEvent]
    | CtrlC => left; simp [handleEvent]
    | other => left; simp [handleEvent]
  | error err => left; simp [handleEvent, writtenConfigs_append, writtenConfigs]
  | other => left; simp [handleEvent]

/-- What the whole loop does to the globals and to the documents written: either
nothing, or one confirmed option, written once. -/
theorem eventLoop_effect (w : World) (options : List String) (events : List Event) :
    ∀ (selected : Int) (s : State),
      ((eventLoop w options events selected s).2.config = s.config ∧
        (eventLoop w options events selected s).2.selectedOption = s.selectedOption ∧
        writtenConfigs (eventLoop w options events selected s).2.trace =
          writtenConfigs s.trace) ∨
      ((∃ d ∈ options,
          (eventLoop w options events selected s).2.selectedOption = d ∧
          (eventLoop w options events selected s).2.config =
            updateActiveContext w.rangeUpdate s.config d ∧
          writtenConfigs (eventLoop w options events selected s).2.trace =
            writtenConfigs s.trace ++ [updateActiveContext w.rangeUpdate s.config d]) ∧
        ((eventLoop w options events selected s).1 = Flow.returned ∨
          (eventLoop w options events selected s).1 = Flow.fatal)) := by
  induction events with
  | nil =>
    intro selected s
    left
    simp [eventLoop, writtenConfigs_append, writtenConfigs_of_isDraw _ (printOptions_isDraw _ _)]
  | cons ev rest ih =>
    intro selected s
    have hdraw := writtenConfigs_of_isDraw _ (printOptions_isDraw options selected)
    have hstep := handleEvent_effect w options selected (s.emitAll (printOptions options selected)) ev
    simp only [State.emitAll_config, State.emitAll_selectedOption, State.emitAll_trace,
      writtenConfigs_append, hdraw, List.append_nil] at hstep
    rcases hres : handleEvent w options selected (s.emitAll (printOptions options selected)) ev
      with ⟨flow, s'⟩
    rw [hres] at hstep
    have hloop : eventLoop w options (ev :: rest) selected s =
        match flow with
        | Flow.next selected' => eventLoop w options rest selected' s'
        | _ => (flow, s') := by
      simp only [eventLoop, hres]
      cases flow <;> rfl
    rcases hstep with ⟨hc, hs, hw⟩ | ⟨hev, ⟨d, hd, hsel, hcfg, hwr⟩, hflow⟩
    · cases flow with
      | next selected' =>
        rw [hloop]
        simp only at hc hs hw ⊢
        rcases ih selected' s' with h | h
        · left; rw [← hc, ← hs, ← hw]; exact h
        · right; rw [← hc, ← hw]; exact h
      | returned => left; rw [hloop]; exact ⟨hc, hs, hw⟩
      | fatal => left; rw [hloop]; exact ⟨hc, hs, hw⟩
      | panicked => left; rw [hloop]; exact ⟨hc, hs, hw⟩
      | awaiting => left; rw [hloop]; exact ⟨hc, hs, hw⟩
    · right
      have hmem : d ∈ options := by
        unfold indexOption at hd
        split at hd
        · simp at hd
        · exact List.get?_mem hd
      simp only at hflow
      rcases hflow with hf | hf <;> subst hf <;> rw [hloop] <;>
        exact ⟨⟨d, hmem, hsel, hcfg, hwr⟩, by simp⟩

/-- The calls after the loop write no document. -/
theorem afterExecute_writtenConfigs (w : World) (s : State) :
    writtenConfigs (afterExecute w s).2.trace = writtenConfigs s.trace ∧
      (afterExecute w s).2.config = s.config ∧
      (afterExecute w s).2.selectedOption = s.selectedOption := by
  unfold afterExecute runCommands
  by_cases hsel : s.selectedOption = "" <;> cases hexit : s.exit <;>
    cases w.setEnvErr <;> cases w.loginErr <;>
    simp [hsel, hexit, writtenConfigs_append, writtenConfigs]

/-- What `rootCmd.Run` does to the documents written, from the loaded document. -/
theorem rootCmdRun_effect (w : World) (s : State) :
    writtenConfigs (rootCmdRun w s).2.trace = writtenConfigs s.trace ∨
    (w.initErr = none ∧ w.readConfig.2 = none ∧
      ∃ d ∈ extractUniqueDomains w.rangeExtract,
        (rootCmdRun w s).2.selectedOption = d ∧
        (rootCmdRun w s).2.config = updateActiveContext w.rangeUpdate w.readConfig.1 d ∧
        writtenConfigs (rootCmdRun w s).2.trace =
          writtenConfigs s.trace ++ [updateActiveContext w.rangeUpdate w.readConfig.1 d]) := by
  unfold rootCmdRun
  cases hinit : w.initErr with
  | some err => left; simp [writtenConfigs_append, writtenConfigs]
  | none =>
    cases hread : w.readConfig.2 with
    | some err => left; simp [writtenConfigs_append, writtenConfigs]
    | none =>
      simp only
      generalize hs₂ : ({ (s.emit Effect.termboxInit).emit (Effect.readFile ".fdk/context.json")
        with config := w.readConfig.1 } : State) = s₂
      have hcfg : s₂.config = w.readConfig.1 := by rw [← hs₂]
      have htr : writtenConfigs s₂.trace = writtenConfigs s.trace := by
        rw [← hs₂]; simp [writtenConfigs_append, writtenConfigs]
      have hloop := eventLoop_effect w (extractUniqueDomains w.rangeExtract) w.events 0 s₂
      rcases hres : eventLoop w (extractUniqueDomains w.rangeExtract) w.events 0 s₂
        with ⟨flow, s₃⟩
      rw [hres] at hloop
      simp only [hcfg, htr] at hloop
      rcases hloop with ⟨_, _, hw⟩ | ⟨⟨d, hd, hsel, hc, hw⟩, _⟩
      · left
        cases flow <;> simp [writtenConfigs_append, writtenConfigs, hw]
      · right
        refine ⟨trivial, trivial, d, hd, ?_⟩
        cases flow <;> simp [writtenConfigs_append, writtenConfigs, hw, hsel, hc]

/-- The options are the domains carried by some entry. -/
theorem mem_extractUniqueDomains (contexts : List (String × Context)) (d : String) :
    d ∈ extractUniqueDomains contexts ↔ ∃ e ∈ contexts, e.2.Domain = d := by
  rw [extractUniqueDomains_eq, mem_removeLaterRepetitions]
  simp

/-- The index expression `options[i]` at an index within the list. -/
theorem indexOption_natCast (options : List String) (i : Nat) (h : i < options.length) :
    indexOption options (i : Int) = some options[i] := by
  unfold indexOption
  have : ¬ ((i : Int) < 0) := by omega
  simp [this, List.getElem?_eq_getElem h]

/-- The empty trace writes no document. -/
theorem writtenConfigs_nil : writtenConfigs [] = [] := rfl

/-- The documents written by a trace, by its first call. -/
theorem writtenConfigs_cons (e : Effect) (rest : List Effect) :
    writtenConfigs (e :: rest) =
      (match e with
        | Effect.writeConfig _ config => [config]
        | _ => []) ++ writtenConfigs rest := by
  cases e <;> rfl

/-- The empty trace runs no command. -/
theorem commandsRun_nil : commandsRun [] = [] := rfl

/-- The commands run by a trace, by its first call. -/
theorem commandsRun_cons (e : Effect) (rest : List Effect) :
    commandsRun (e :: rest) =
      (match e with
        | Effect.runSetEnv envName => [Effect.runSetEnv envName]
        | Effect.runFDKLoginCommand => [Effect.runFDKLoginCommand]
        | _ => []) ++ commandsRun rest := by
  cases e <;> rfl

/-- The empty trace prints nothing. -/
theorem printed_nil : printed [] = [] := rfl

/-- The text printed by a trace, by its first call. -/
theorem printed_cons (e : Effect) (rest : List Effect) :
    printed (e :: rest) =
      (match e with
        | Effect.stdout text => [text]
        | _ => []) ++ printed rest := by
  cases e <;> rfl

/-- The loop up to an event that cancels or reports an input error: `Run` returns
with the globals as loaded, `exit` set by a cancel key only, and only `Init`,
the read, drawing, the error log and `Close` in the trace. -/
theorem rootCmdRun_cancelled (w : World) (before rest : List Event) (t : Event)
    (hinit : w.initErr = none) (hread : w.readConfig.2 = none)
    (hev : w.events = before ++ t :: rest) (hb : ∀ e ∈ before, e.keepsRunning = true)
    (ht : t.isCancelKey = true ∨ t.isError = true) :
    (rootCmdRun w State.init).1 = Flow.returned ∧
      (rootCmdRun w State.init).2.config = w.readConfig.1 ∧
      (rootCmdRun w State.init).2.selectedOption = "" ∧
      (rootCmdRun w State.init).2.exit = t.isCancelKey ∧
      writtenConfigs (rootCmdRun w State.init).2.trace = [] ∧
      commandsRun (rootCmdRun w State.init).2.trace = [] ∧
      printed (rootCmdRun w State.init).2.trace = [] := by
  unfold rootCmdRun
  simp only [hinit, hread, hev]
  obtain ⟨selected, frames, hdraw, hloop⟩ :=
    eventLoop_keepsRunning_prefix w (extractUniqueDomains w.rangeExtract) before hb (t :: rest) 0
      ({ (State.init.emit Effect.termboxInit).emit (Effect.readFile ".fdk/context.json")
          with config := w.readConfig.1 } : State)
  rw [hloop]
  have hw₁ := writtenConfigs_of_isDraw _ hdraw
  have hc₁ := commandsRun_of_isDraw _ hdraw
  have hp₁ := printed_of_isDraw _ hdraw
  have hw₂ := writtenConfigs_of_isDraw _
    (printOptions_isDraw (extractUniqueDomains w.rangeExtract) selected)
  have hc₂ := commandsRun_of_isDraw _
    (printOptions_isDraw (extractUniqueDomains w.rangeExtract) selected)
  have hp₂ := printed_of_isDraw _
    (printOptions_isDraw (extractUniqueDomains w.rangeExtract) selected)
  cases t with
  | key k =>
    cases k <;> simp [Event.isCancelKey, Event.isError] at ht <;>
      simp [eventLoop, handleEvent, State.init, Event.isCancelKey, writtenConfigs_append,
        commandsRun_append, printed_append, writtenConfigs_cons, commandsRun_cons, printed_cons, writtenConfigs_nil,
        commandsRun_nil, printed_nil, hw₁, hc₁, hp₁, hw₂, hc₂, hp₂]
  | error err =>
    simp [eventLoop, handleEvent, State.init, Event.isCancelKey, writtenConfigs_append,
      commandsRun_append, printed_append, writtenConfigs_cons, commandsRun_cons, printed_cons, writtenConfigs_nil,
      commandsRun_nil, printed_nil, hw₁, hc₁, hp₁, hw₂, hc₂, hp₂]
  | other => simp [Event.isCancelKey, Event.isError] at ht

/-- The options depend on the enumeration through the sequence of domains only. -/
theorem extractUniqueDomains_congr_domains (r₁ r₂ : List (String × Context))
    (h : (r₁.map fun e => e.2.Domain) = r₂.map fun e => e.2.Domain) :
    extractUniqueDomains r₁ = extractUniqueDomains r₂ := by
  rw [extractUniqueDomains_eq, extractUniqueDomains_eq, h]

/-- The options of an enumeration have no repetition. -/
theorem nodup_extractUniqueDomains (contexts : List (String × Context)) :
    (extractUniqueDomains contexts).Nodup := by
  rw [extractUniqueDomains_eq]
  exact nodup_removeLaterRepetitions _

/-- Two enumerations of one map yield the same options up to order. -/
theorem extractUniqueDomains_perm (r₁ r₂ : List (String × Context)) (h : r₁.Perm r₂) :
    (extractUniqueDomains r₁).Perm (extractUniqueDomains r₂) := by
  rw [List.perm_ext_iff_of_nodup (nodup_extractUniqueDomains _) (nodup_extractUniqueDomains _)]
  intro d
  rw [mem_extractUniqueDomains, mem_extractUniqueDomains]
  constructor
  · rintro ⟨e, he, hd⟩; exact ⟨e, h.mem_iff.1 he, hd⟩
  · rintro ⟨e, he, hd⟩; exact ⟨e, h.mem_iff.2 he, hd⟩

/-- A non-empty enumeration yields at least one option. -/
theorem extractUniqueDomains_ne_nil (contexts : List (String × Context)) (h : contexts ≠ []) :
    extractUniqueDomains contexts ≠ [] := by
  cases contexts with
  | nil => exact absurd rfl h
  | cons e t =>
    intro hnil
    have hmem : e.2.Domain ∈ extractUniqueDomains (e :: t) :=
      (mem_extractUniqueDomains _ _).2 ⟨e, List.mem_cons_self _ _, rfl⟩
    rw [hnil] at hmem
    simp at hmem

/-- An event that keeps the loop running moves the cursor within the list. -/
theorem handleEvent_next_bounds (w : World) (options : List String) (i j : Int) (s s' : State)
    (ev : Event) (h : handleEvent w options i s ev = (Flow.next j, s'))
    (h0 : 0 ≤ i) (hn : i ≤ (options.length : Int) - 1) :
    0 ≤ j ∧ j ≤ (options.length : Int) - 1 := by
  cases ev with
  | key k =>
    cases k with
    | ArrowUp =>
      simp only [handleEvent] at h
      split at h <;> simp only [Prod.mk.injEq, Flow.next.injEq] at h <;> omega
    | ArrowDown =>
      simp only [handleEvent] at h
      split at h <;> simp only [Prod.mk.injEq, Flow.next.injEq] at h <;> omega
    | Enter =>
      simp only [handleEvent] at h
      split at h
      · simp at h
      · split at h <;> simp at h
    | Esc => simp [handleEvent] at h
    | CtrlC => simp [handleEvent] at h
    | other =>
      simp only [handleEvent, Prod.mk.injEq, Flow.next.injEq] at h
      omega
  | error err => simp [handleEvent] at h
  | other =>
    simp only [handleEvent, Prod.mk.injEq, Flow.next.injEq] at h
    omega

/-- A cursor within the list indexes an option. -/
theorem indexOption_of_bounds (options : List String) (i : Int) (h0 : 0 ≤ i)
    (hn : i ≤ (options.length : Int) - 1) : ∃ d, indexOption options i = some d := by
  have hlt : i.toNat < options.length := by omega
  refine ⟨options[i.toNat], ?_⟩
  unfold indexOption
  have : ¬ (i < 0) := by omega
  simp [this, List.getElem?_eq_getElem hlt]

/-- From a cursor within the list, every cursor the loop goes through is within the
list. -/
theorem cursorsVisited_bounds (w : World) (options : List String) (events : List Event) :
    ∀ (i : Int) (s : State), 0 ≤ i → i ≤ (options.length : Int) - 1 →
      ∀ c ∈ cursorsVisited w options events i s, 0 ≤ c ∧ c ≤ (options.length : Int) - 1 := by
  induction events with
  | nil =>
    intro i s h0 hn c hc
    simp only [cursorsVisited, List.mem_singleton] at hc
    subst hc
    exact ⟨h0, hn⟩
  | cons ev rest ih =>
    intro i s h0 hn c hc
    simp only [cursorsVisited, List.mem_cons] at hc
    rcases hc with rfl | hc
    · exact ⟨h0, hn⟩
    · rcases hres : handleEvent w options i (s.emitAll (printOptions options i)) ev
        with ⟨flow, s'⟩
      rw [hres] at hc
      cases flow with
      | next j =>
        have hb := handleEvent_next_bounds w options i j _ s' ev hres h0 hn
        exact ih j s' hb.1 hb.2 c hc
      | returned => simp at hc
      | fatal => simp at hc
      | panicked => simp at hc
      | awaiting => simp at hc

/-- The `switch` panics only at a cursor outside the list. -/
theorem handleEvent_panicked (w : World) (options : List String) (i : Int) (s : State)
    (ev : Event) (h : (handleEvent w options i s ev).1 = Flow.panicked) :
    indexOption options i = none := by
  cases ev with
  | key k =>
    cases k with
    | ArrowUp => simp only [handleEvent] at h; split at h <;> simp at h
    | ArrowDown => simp only [handleEvent] at h; split at h <;> simp at h
    | Enter =>
      cases hidx : indexOption options i with
      | none => rfl
      | some d => cases hw : w.writeErr <;> simp [handleEvent, hidx, hw] at h
    | Esc => simp [handleEvent] at h
    | CtrlC => simp [handleEvent] at h
    | other => simp [handleEvent] at h
  | error err => simp [handleEvent] at h
  | other => simp [handleEvent] at h

/-- From a cursor within the list, the loop does not panic. -/
theorem eventLoop_not_panicked (w : World) (options : List String) (events : List Event) :
    ∀ (i : Int) (s : State), 0 ≤ i → i ≤ (options.length : Int) - 1 →
      (eventLoop w options events i s).1 ≠ Flow.panicked := by
  induction events with
  | nil => intro i s _ _; simp [eventLoop]
  | cons ev rest ih =>
    intro i s h0 hn
    rcases hres : handleEvent w options i (s.emitAll (printOptions options i)) ev
      with ⟨flow, s'⟩
    cases flow with
    | next j =>
      have hb := handleEvent_next_bounds w options i j _ s' ev hres h0 hn
      simp only [eventLoop, hres]
      exact ih j s' hb.1 hb.2
    | panicked =>
      have hp := handleEvent_panicked w options i _ ev (by rw [hres])
      obtain ⟨d, hd⟩ := indexOption_of_bounds options i h0 hn
      rw [hd] at hp
      simp at hp
    | returned => simp [eventLoop, hres]
    | fatal => simp [eventLoop, hres]
    | awaiting => simp [eventLoop, hres]

/-- An event sequence either keeps the loop running throughout, or has a first
event that ends the loop. -/
theorem events_split (events : List Event) :
    (∀ e ∈ events, e.keepsRunning = true) ∨
    ∃ before t rest, events = before ++ t :: rest ∧
      (∀ e ∈ before, e.keepsRunning = true) ∧ t.keepsRunning = false := by
  induction events with
  | nil => left; simp
  | cons ev tail ih =>
    cases hev : ev.keepsRunning with
    | false => right; exact ⟨[], ev, tail, rfl, by simp, hev⟩
    | true =>
      rcases ih with hall | ⟨before, t, rest, hsplit, hb, ht⟩
      · left
        intro e he
        rcases List.mem_cons.1 he with rfl | he
        · exact hev
        · exact hall e he
      · right
        refine ⟨ev :: before, t, rest, by simp [hsplit], ?_, ht⟩
        intro e he
        rcases List.mem_cons.1 he with rfl | he
        · exact hev
        · exact hb e he

/-- An event that ends the loop: the loop's result is the result of the `switch`. -/
theorem eventLoop_terminal (w : World) (options : List String) (t : Event) (rest : List Event)
    (selected : Int) (s : State) (ht : t.keepsRunning = false) :
    eventLoop w options (t :: rest) selected s =
      handleEvent w options selected (s.emitAll (printOptions options selected)) t := by
  cases t with
  | key k =>
    cases k <;> simp [Event.keepsRunning] at ht
    · cases hidx : indexOption options selected with
      | none => simp [eventLoop, handleEvent, hidx]
      | some d => cases hw : w.writeErr <;> simp [eventLoop, handleEvent, hidx, hw]
    · simp [eventLoop, handleEvent]
    · simp [eventLoop, handleEvent]
  | error err => simp [eventLoop, handleEvent]
  | other => simp [Event.keepsRunning] at ht

/-- The shape of every run of the loop: it draws frames and then either waits for
an event that does not come, or handles the first event that ends it. -/
theorem eventLoop_shape (w : World) (options : List String) (events : List Event)
    (selected : Int) (s : State) :
    (∃ frames : List Effect, (∀ e ∈ frames, e.isDraw = true) ∧
      (∀ e ∈ events, e.keepsRunning = true) ∧
      eventLoop w options events selected s = (Flow.awaiting, s.emitAll frames)) ∨
    (∃ (before : List Event) (t : Event) (rest : List Event) (selected' : Int)
      (frames : List Effect),
      events = before ++ t :: rest ∧ (∀ e ∈ before, e.keepsRunning = true) ∧
      t.keepsRunning = false ∧ (∀ e ∈ frames, e.isDraw = true) ∧
      eventLoop w options events selected s =
        handleEvent w options selected' (s.emitAll frames) t) := by
  rcases events_split events with hall | ⟨before, t, rest, hsplit, hb, ht⟩
  · left
    obtain ⟨selected', frames, hdraw, heq⟩ :=
      eventLoop_keepsRunning_prefix w options events hall [] selected s
    rw [List.append_nil] at heq
    refine ⟨frames ++ printOptions options selected', ?_, hall, ?_⟩
    · intro e he
      rcases List.mem_append.1 he with he | he
      · exact hdraw e he
      · exact printOptions_isDraw _ _ e he
    · rw [heq, ← State.emitAll_emitAll]
      rfl
  · right
    obtain ⟨selected', frames, hdraw, heq⟩ :=
      eventLoop_keepsRunning_prefix w options before hb (t :: rest) selected s
    refine ⟨before, t, rest, selected', frames ++ printOptions options selected', hsplit, hb, ht,
      ?_, ?_⟩
    · intro e he
      rcases List.mem_append.1 he with he | he
      · exact hdraw e he
      · exact printOptions_isDraw _ _ e he
    · rw [hsplit, heq, eventLoop_terminal w options t rest selected' _ ht,
        State.emitAll_emitAll]

/-- Every run of the loop either leaves the document and the written documents as
they were, or ends on a confirm event at a cursor inside the list: then the
document is updated once and written once, and the write is the last call of the
loop but for the report of its failure. -/
theorem eventLoop_confirm_shape (w : World) (options : List String) (events : List Event)
    (selected : Int) (s : State) :
    ((eventLoop w options events selected s).2.config = s.config ∧
      (eventLoop w options events selected s).2.selectedOption = s.selectedOption ∧
      writtenConfigs (eventLoop w options events selected s).2.trace = writtenConfigs s.trace ∧
      commandsRun (eventLoop w options events selected s).2.trace = commandsRun s.trace) ∨
    (∃ (before rest : List Event) (selected' : Int) (d : String) (frames tail : List Effect),
      events = before ++ Event.key Key.Enter :: rest ∧
      (∀ e ∈ before, e.keepsRunning = true) ∧
      indexOption options selected' = some d ∧
      (∀ e ∈ frames, e.isDraw = true) ∧
      (eventLoop w options events selected s).2.selectedOption = d ∧
      (eventLoop w options events selected s).2.config =
        updateActiveContext w.rangeUpdate s.config d ∧
      (eventLoop w options events selected s).2.exit = s.exit ∧
      (eventLoop w options events selected s).2.trace =
        s.trace ++ frames ++
          Effect.writeConfig ".fdk/context.json" (updateActiveContext w.rangeUpdate s.config d)
            :: tail ∧
      ((w.writeErr = none ∧ tail = [] ∧
          (eventLoop w options events selected s).1 = Flow.returned) ∨
        (∃ err, w.writeErr = some err ∧
          tail = [Effect.logFatalf ("failed to write config: " ++ err)] ∧
          (eventLoop w options events selected s).1 = Flow.fatal))) := by
  rcases eventLoop_shape w options events selected s with
    ⟨frames, hdraw, _, heq⟩ | ⟨before, t, rest, selected', frames, hsplit, hb, ht, hdraw, heq⟩
  · left
    rw [heq]
    simp [writtenConfigs_append, commandsRun_append, writtenConfigs_of_isDraw _ hdraw,
      commandsRun_of_isDraw _ hdraw]
  · rw [heq]
    have hw := writtenConfigs_of_isDraw _ hdraw
    have hc := commandsRun_of_isDraw _ hdraw
    cases t with
    | key k =>
      cases k <;> simp [Event.keepsRunning] at ht
      · cases hidx : indexOption options selected' with
        | none =>
          left
          simp [handleEvent, hidx, writtenConfigs_append, commandsRun_append, hw, hc]
        | some d =>
          right
          cases hwe : w.writeErr with
          | none =>
            exact ⟨before, rest, selected', d, frames, [], hsplit, hb, hidx, hdraw,
              by simp [handleEvent, hidx, hwe], by simp [handleEvent, hidx, hwe],
              by simp [handleEvent, hidx, hwe], by simp [handleEvent, hidx, hwe],
              Or.inl ⟨rfl, rfl, by simp [handleEvent, hidx, hwe]⟩⟩
          | some err =>
            exact ⟨before, rest, selected', d, frames,
              [Effect.logFatalf ("failed to write config: " ++ err)], hsplit, hb, hidx, hdraw,
              by simp [handleEvent, hidx, hwe], by simp [handleEvent, hidx, hwe],
              by simp [handleEvent, hidx, hwe], by simp [handleEvent, hidx, hwe],
              Or.inr ⟨err, rfl, rfl, by simp [handleEvent, hidx, hwe]⟩⟩
      · left
        simp [handleEvent, writtenConfigs_append, commandsRun_append, hw, hc]
      · left
        simp [handleEvent, writtenConfigs_append, commandsRun_append, hw, hc]
    | error err =>
      left
      simp [handleEvent, writtenConfigs_append, commandsRun_append, hw, hc,
        writtenConfigs_cons, commandsRun_cons, writtenConfigs_nil, commandsRun_nil]
    | other => simp [Event.keepsRunning] at ht

/-- What `rootCmd.Run` writes from program start: nothing, or, on a confirm event,
one updated document, after which it returns if the write succeeded and exits
through `log.Fatalf` if it failed.  It runs no command. -/
theorem rootCmdRun_confirm_shape (w : World) :
    commandsRun (rootCmdRun w State.init).2.trace = [] ∧
    (writtenConfigs (rootCmdRun w State.init).2.trace = [] ∨
      (∃ d : String,
        writtenConfigs (rootCmdRun w State.init).2.trace =
          [updateActiveContext w.rangeUpdate w.readConfig.1 d] ∧
        (rootCmdRun w State.init).2.config = updateActiveContext w.rangeUpdate w.readConfig.1 d ∧
        ((w.writeErr = none ∧ (rootCmdRun w State.init).1 = Flow.returned) ∨
          (∃ err before, w.writeErr = some err ∧ (rootCmdRun w State.init).1 = Flow.fatal ∧
            (rootCmdRun w State.init).2.trace = before ++
              [Effect.writeConfig ".fdk/context.json"
                  (updateActiveContext w.rangeUpdate w.readConfig.1 d),
                Effect.logFatalf ("failed to write config: " ++ err)])))) := by
  unfold rootCmdRun
  cases hinit : w.initErr with
  | some err =>
    simp [State.init, commandsRun_cons, commandsRun_nil, writtenConfigs_cons, writtenConfigs_nil]
  | none =>
    cases hread : w.readConfig.2 with
    | some err =>
      simp [State.init, commandsRun_cons, commandsRun_nil, writtenConfigs_cons,
        writtenConfigs_nil]
    | none =>
      simp only
      generalize hs₂ : ({ (State.init.emit Effect.termboxInit).emit
        (Effect.readFile ".fdk/context.json") with config := w.readConfig.1 } : State) = s₂
      have hcfg : s₂.config = w.readConfig.1 := by rw [← hs₂]
      have htr : s₂.trace = [Effect.termboxInit, Effect.readFile ".fdk/context.json"] := by
        rw [← hs₂]; rfl
      have hloop := eventLoop_confirm_shape w (extractUniqueDomains w.rangeExtract) w.events 0 s₂
      rcases hres : eventLoop w (extractUniqueDomains w.rangeExtract) w.events 0 s₂
        with ⟨flow, s₃⟩
      rw [hres] at hloop
      simp only [hcfg, htr] at hloop
      rcases hloop with ⟨_, _, hw, hc⟩ |
        ⟨before, rest, selected', d, frames, tail, _, _, _, hdraw, _, hconf, _, htrace, hend⟩
      · have hw' : writtenConfigs s₃.trace = [] := by
          rw [hw]; simp [writtenConfigs_cons, writtenConfigs_nil]
        have hc' : commandsRun s₃.trace = [] := by
          rw [hc]; simp [commandsRun_cons, commandsRun_nil]
        cases flow <;>
          simp [hw', hc', writtenConfigs_append, commandsRun_append, writtenConfigs_cons,
            writtenConfigs_nil, commandsRun_cons, commandsRun_nil]
      · have hdw := writtenConfigs_of_isDraw _ hdraw
        have hdc := commandsRun_of_isDraw _ hdraw
        rcases hend with ⟨hwe, htail, hflow⟩ | ⟨err, hwe, htail, hflow⟩
        · subst hflow
          subst htail
          refine ⟨?_, Or.inr ⟨d, ?_, hconf, Or.inl ⟨hwe, rfl⟩⟩⟩
          · simp [htrace, commandsRun_append, commandsRun_cons, commandsRun_nil, hdc]
          · simp [htrace, writtenConfigs_append, writtenConfigs_cons, writtenConfigs_nil, hdw]
        · subst hflow
          subst htail
          refine ⟨?_, Or.inr ⟨d, ?_, hconf, Or.inr ⟨err,
            [Effect.termboxInit, Effect.readFile ".fdk/context.json"] ++ frames, hwe, rfl, ?_⟩⟩⟩
          · simp [htrace, commandsRun_append, commandsRun_cons, commandsRun_nil, hdc]
          · simp [htrace, writtenConfigs_append, writtenConfigs_cons, writtenConfigs_nil, hdw]
          · exact htrace

/-- The function `main` when `rootCmd.Execute` calls `Run`. -/
theorem main_of_run (w : World) (hexec : w.executeErr = none) (hhelp : w.helpRequested = false) :
    main w =
      match rootCmdRun w State.init with
      | (Flow.returned, s) => afterExecute w s
      | (Flow.fatal, s) => (Termination.failure, s)
      | (Flow.panicked, s) => (Termination.crashed, s)
      | (_, s) => (Termination.awaiting, s) := by
  unfold main
  simp only [hexec, hhelp]
  rfl

/-- The function `main` when `rootCmd.Execute` answers the command line itself. -/
theorem main_of_help (w : World) (hexec : w.executeErr = none) (hhelp : w.helpRequested = true) :
    main w = afterExecute w State.init := by
  unfold main
  simp only [hexec, hhelp]
  rfl

/-- The function `main` writes what `rootCmd.Run` writes, and nothing when `Run` is
not called. -/
theorem main_writtenConfigs (w : World) :
    writtenConfigs (main w).2.trace =
      match w.executeErr with
      | some _ => []
      | none =>
        if w.helpRequested then [] else writtenConfigs (rootCmdRun w State.init).2.trace := by
  cases hexec : w.executeErr with
  | some err =>
    unfold main
    simp [hexec, State.init, writtenConfigs_cons, writtenConfigs_nil]
  | none =>
    cases hhelp : w.helpRequested with
    | true =>
      rw [main_of_help w hexec hhelp, (afterExecute_writtenConfigs w State.init).1]
      simp [State.init, writtenConfigs_nil]
    | false =>
      rw [main_of_run w hexec hhelp]
      simp only [Bool.false_eq_true, if_false]
      rcases hres : rootCmdRun w State.init with ⟨flow, s⟩
      cases flow <;> simp [(afterExecute_writtenConfigs w s).1]

/-- The cells of a concatenated sequence of calls. -/
theorem rowCells_append (y : Int) (es fs : List Effect) :
    rowCells y (es ++ fs) = rowCells y es ++ rowCells y fs := by
  induction es with
  | nil => rfl
  | cons e t ih =>
    cases e with
    | termboxSetCell x y' ch fg bg =>
      simp only [List.cons_append, rowCells]
      split <;> simp [ih]
    | _ => exact ih

/-- The function `tbprint` draws the runes of its text on row `y'`, one column each
from column `x` on, and touches no other row. -/
theorem rowCells_tbprintLoop (y y' : Int) (fg bg : Attribute) (cs : List Char) :
    ∀ x : Int, rowCells y (tbprintLoop x y' fg bg cs) =
      if y' = y then textCells x fg bg cs else [] := by
  induction cs with
  | nil => intro x; simp [tbprintLoop, rowCells, textCells]
  | cons c t ih =>
    intro x
    simp only [tbprintLoop, rowCells, textCells, ih]
    split <;> rfl

/-- The function `printOption` draws on the row of its index only. -/
theorem rowCells_printOption_of_ne (y index selected : Int) (option : String)
    (h : index ≠ y) : rowCells y (printOption option index selected) = [] := by
  unfold printOption tbprint
  split <;> simp [rowCells_tbprintLoop, h]

/-- The row of its index, as `printOption` draws it: the marker and the emphasis at
the cursor, two blanks and the default attribute elsewhere. -/
theorem rowCells_printOption_self (index selected : Int) (option : String) :
    rowCells index (printOption option index selected) =
      if index = selected then
        textCells 0 Attribute.ColorGreenBold Attribute.ColorDefault ("> " ++ option).toList
      else
        textCells 0 Attribute.ColorDefault Attribute.ColorDefault ("  " ++ option).toList := by
  unfold printOption tbprint
  split <;> simp [rowCells_tbprintLoop]

/-- The loop of `printOptions` from index `j` draws nothing above row `j`. -/
theorem rowCells_printOptionsLoop_above (selected y : Int) (options : List String) :
    ∀ j : Int, y < j → rowCells y (printOptionsLoop selected j options) = [] := by
  induction options with
  | nil => intro j _; rfl
  | cons o t ih =>
    intro j hj
    simp only [printOptionsLoop, rowCells_append]
    rw [rowCells_printOption_of_ne y j selected o (by omega), ih (j + 1) (by omega)]
    rfl

/-- The loop of `printOptions` from index `j` draws nothing below its last row. -/
theorem rowCells_printOptionsLoop_below (selected y : Int) (options : List String) :
    ∀ j : Int, j + options.length ≤ y → rowCells y (printOptionsLoop selected j options) = [] := by
  induction options with
  | nil => intro j _; rfl
  | cons o t ih =>
    intro j hj
    simp only [List.length_cons, Nat.cast_add, Nat.cast_one] at hj
    simp only [printOptionsLoop, rowCells_append]
    rw [rowCells_printOption_of_ne y j selected o (by omega), ih (j + 1) (by omega)]
    rfl

/-- The loop of `printOptions` from index `j` draws option `k` on row `j + k`. -/
theorem rowCells_printOptionsLoop (selected : Int) (options : List String) :
    ∀ (j : Int) (k : Nat) (hk : k < options.length),
      rowCells (j + k) (printOptionsLoop selected j options) =
        rowCells (j + k) (printOption options[k] (j + k) selected) := by
  induction options with
  | nil => intro j k hk; simp at hk
  | cons o t ih =>
    intro j k hk
    simp only [printOptionsLoop, rowCells_append]
    cases k with
    | zero =>
      simp only [Nat.cast_zero, add_zero, List.getElem_cons_zero]
      rw [rowCells_printOptionsLoop_above selected j t (j + 1) (by omega), List.append_nil]
    | succ k' =>
      have hk' : k' < t.length := by simpa using hk
      rw [rowCells_printOption_of_ne _ j selected o (by push_cast; omega)]
      have h := ih (j + 1) k' hk'
      have hrow : j + ((k' + 1 : Nat) : Int) = j + 1 + (k' : Int) := by push_cast; omega
      rw [hrow, h]
      simp

/-- When no entry of the enumeration carries the domain, `updateActiveContext`
leaves the document as it is. -/
theorem updateActiveContext_of_not_carried (contexts : List (String × Context))
    (config : Config) (d : String) (h : ∀ e ∈ contexts, e.2.Domain ≠ d) :
    updateActiveContext contexts config d = config := by
  induction contexts with
  | nil => rfl
  | cons e t ih =>
    obtain ⟨key, context⟩ := e
    have hne : context.Domain ≠ d := h (key, context) (List.mem_cons_self _ _)
    simp only [updateActiveContext, if_neg hne]
    exact ih (fun x hx => h x (List.mem_cons_of_mem _ hx))

/-- The cells of a frame are those its options loop draws: `Clear` and `Flush` set
no cell. -/
theorem rowCells_printOptions (y selected : Int) (options : List String) :
    rowCells y (printOptions options selected) =
      rowCells y (printOptionsLoop selected 0 options) := by
  unfold printOptions
  rw [rowCells_append, rowCells_append]
  have h₁ : rowCells y [Effect.termboxClear] = [] := rfl
  have h₂ : rowCells y [Effect.termboxFlush] = [] := rfl
  rw [h₁, h₂, List.nil_append, List.append_nil]

/-- The options keep the order in which the enumeration first encounters the
domains. -/
theorem indexOf_extractUniqueDomains_lt_iff (contexts : List (String × Context))
    (a b : String) :
    ((extractUniqueDomains contexts).indexOf a < (extractUniqueDomains contexts).indexOf b ↔
      (contexts.map fun e => e.2.Domain).indexOf a <
        (contexts.map fun e => e.2.Domain).indexOf b) := by
  rw [extractUniqueDomains_eq]
  exact indexOf_removeLaterRepetitions_lt_iff _ a b

/-- Two lists without repetition that hold the same strings in the same relative
order are equal. -/
theorem eq_of_nodup_of_same_order (l₁ : List String) :
    ∀ l₂ : List String, l₁.Nodup → l₂.Nodup → (∀ a, a ∈ l₁ ↔ a ∈ l₂) →
      (∀ a b, l₁.indexOf a < l₁.indexOf b ↔ l₂.indexOf a < l₂.indexOf b) → l₁ = l₂ := by
  induction l₁ with
  | nil =>
    intro l₂ _ _ hmem _
    symm
    apply List.eq_nil_iff_forall_not_mem.2
    intro a ha
    have := (hmem a).2 ha
    simp at this
  | cons x t₁ ih =>
    intro l₂ hn₁ hn₂ hmem hord
    cases l₂ with
    | nil =>
      have := (hmem x).1 (List.mem_cons_self _ _)
      simp at this
    | cons y t₂ =>
      have hyx : y = x := by
        by_contra hne
        have h₂ : (y :: t₂).indexOf y < (y :: t₂).indexOf x := by
          rw [List.indexOf_cons_self, List.indexOf_cons_ne _ hne]
          exact Nat.succ_pos _
        have h₁ := (hord y x).2 h₂
        rw [List.indexOf_cons_self] at h₁
        exact Nat.not_lt_zero _ h₁
      subst hyx
      have hx₁ : y ∉ t₁ := (List.nodup_cons.1 hn₁).1
      have hx₂ : y ∉ t₂ := (List.nodup_cons.1 hn₂).1
      have hmem' : ∀ a, a ∈ t₁ ↔ a ∈ t₂ := by
        intro a
        constructor
        · intro ha
          have hne : a ≠ y := fun h => hx₁ (h ▸ ha)
          rcases List.mem_cons.1 ((hmem a).1 (List.mem_cons_of_mem _ ha)) with h | h
          · exact absurd h hne
          · exact h
        · intro ha
          have hne : a ≠ y := fun h => hx₂ (h ▸ ha)
          rcases List.mem_cons.1 ((hmem a).2 (List.mem_cons_of_mem _ ha)) with h | h
          · exact absurd h hne
          · exact h
      have hlen : t₁.length = t₂.length :=
        (((List.perm_ext_iff_of_nodup (List.nodup_cons.1 hn₁).2
          (List.nodup_cons.1 hn₂).2).2 hmem').length_eq)
      congr 1
      apply ih t₂ (List.nodup_cons.1 hn₁).2 (List.nodup_cons.1 hn₂).2 hmem'
      intro a b
      by_cases hay : y = a
      · subst hay
        rw [List.indexOf_of_not_mem hx₁, List.indexOf_of_not_mem hx₂]
        constructor
        · intro h
          exact absurd h (Nat.not_lt.2 List.indexOf_le_length)
        · intro h
          exact absurd h (Nat.not_lt.2 List.indexOf_le_length)
      · by_cases hby : y = b
        · subst hby
          rw [List.indexOf_of_not_mem hx₁, List.indexOf_of_not_mem hx₂,
            List.indexOf_lt_length, List.indexOf_lt_length]
          exact hmem' a
        · have h := hord a b
          rw [List.indexOf_cons_ne _ hay, List.indexOf_cons_ne _ hby,
            List.indexOf_cons_ne _ hay, List.indexOf_cons_ne _ hby] at h
          simpa [Nat.succ_lt_succ_iff] using h

/-- What a run does when the first event that ends the loop is a cancel key or an
input error: the global `config` is the document as loaded, nothing is written, no
selection is reported and the set-environment operation is not called; the login
operation is called after an input error and is not called after a cancel key. -/
theorem cancel_or_error_run (w : World) (before rest : List Event) (t : Event)
    (hexec : w.executeErr = none) (hhelp : w.helpRequested = false)
    (hinit : w.initErr = none) (hread : w.readConfig.2 = none)
    (hev : w.events = before ++ t :: rest) (hb : ∀ e ∈ before, e.keepsRunning = true)
    (ht : t.isCancelKey = true ∨ t.isError = true) :
    (main w).2.config = w.readConfig.1 ∧
      writtenConfigs (main w).2.trace = [] ∧
      printed (main w).2.trace = [] ∧
      (∀ envName, Effect.runSetEnv envName ∉ commandsRun (main w).2.trace) ∧
      commandsRun (main w).2.trace =
        (if t.isError then [Effect.runFDKLoginCommand] else []) := by
  obtain ⟨hflow, hcfg, hsel, hexit, hwr, hcmd, hpr⟩ :=
    rootCmdRun_cancelled w before rest t hinit hread hev hb ht
  have hcase : t.isError = !t.isCancelKey := by
    cases t with
    | key k => cases k <;> simp_all [Event.isCancelKey, Event.isError]
    | error err => rfl
    | other => simp [Event.isCancelKey, Event.isError] at ht
  rw [main_of_run w hexec hhelp]
  rcases hres : rootCmdRun w State.init with ⟨flow, s⟩
  rw [hres] at hflow hcfg hsel hexit hwr hcmd hpr
  simp only at hflow hcfg hsel hexit hwr hcmd hpr
  subst hflow
  simp only [afterExecute, runCommands, hsel, hexit, hcase]
  cases hck : t.isCancelKey <;> cases hl : w.loginErr <;>
    simp [hcfg, hwr, hcmd, hpr, hsel, hexit, hck, hl, writtenConfigs_append,
      commandsRun_append, printed_append,
      writtenConfigs_cons, commandsRun_cons, printed_cons, writtenConfigs_nil,
      commandsRun_nil, printed_nil]

/-- When `rootCmd.Execute` answers the command line itself, `main` acquires no
display surface, writes nothing and calls the login operation. -/
theorem main_help_runs_login :
    (main helpWorld).2.trace = [Effect.runFDKLoginCommand] ∧
      (main helpWorld).1 = Termination.success :=
  ⟨rfl, by decide⟩

/-! ## The claims -/

/-- C1: for every context set, enumerated in some traversal order,
`extractUniqueDomains` returns the domains of the entries in that order with every
later repetition removed.  A string is in the result iff it is the `Domain` of some
entry, no string occurs twice, and `a` comes before `b` in the result iff the first
entry with domain `a` is traversed before the first entry with domain `b`
(positions are `indexOf`, which is the length of the list for an absent string). -/
theorem extractUniqueDomains_first_occurrences (contexts : List (String × Context)) :
    extractUniqueDomains contexts =
        removeLaterRepetitions (contexts.map fun e => e.2.Domain) ∧
      (∀ d : String, d ∈ extractUniqueDomains contexts ↔ ∃ e ∈ contexts, e.2.Domain = d) ∧
      (extractUniqueDomains contexts).Nodup ∧
      (∀ a b : String,
        (extractUniqueDomains contexts).indexOf a < (extractUniqueDomains contexts).indexOf b ↔
          (contexts.map fun e => e.2.Domain).indexOf a <
            (contexts.map fun e => e.2.Domain).indexOf b) := by
  rw [extractUniqueDomains_eq]
  refine ⟨rfl, ?_, nodup_removeLaterRepetitions _, ?_⟩
  · intro d
    rw [mem_removeLaterRepetitions]
    simp
  · intro a b
    exact indexOf_removeLaterRepetitions_lt_iff _ a b

/-- C2, as stated, fails: on the example of the specification, with extraction
enumerating the map as `ctxA, ctxB, ctxC` (so that the first entry with domain
`prod-us` in that order is `ctxA`) and the `range` of `updateActiveContext`
enumerating the same map as `ctxC, ctxB, ctxA`, choosing `prod-us` sets
`ActiveContext` to `ctxC`, not to `ctxA`. -/
theorem updateActiveContext_order_counterexample :
    exampleContexts.WellFormed ∧
      exampleContexts.reverse.Perm exampleContexts ∧
      extractUniqueDomains exampleContexts = ["prod-us", "prod-eu"] ∧
      (exampleContexts.find? fun e => e.2.Domain = "prod-us") = some ("ctxA", exampleA) ∧
      (updateActiveContext exampleContexts.reverse exampleConfig "prod-us").Theme.ActiveContext
        = "ctxC" ∧
      (updateActiveContext exampleContexts.reverse exampleConfig "prod-us").Theme.ActiveContext
        ≠ "ctxA" := by
  decide

/-- C2, amended: for every enumeration `contexts` produced by the `range` statement
of `updateActiveContext` itself and every chosen domain carried by at least one
entry, `updateActiveContext` sets `ActiveContext` to the key of the first entry of
that enumeration whose `Domain` equals the chosen domain: every entry before it
carries another domain. -/
theorem updateActiveContext_first_match (contexts : List (String × Context)) (config : Config)
    (selectedDomain : String) (h : ∃ e ∈ contexts, e.2.Domain = selectedDomain) :
    ∃ before key context after,
      contexts = before ++ (key, context) :: after ∧
      (∀ e ∈ before, e.2.Domain ≠ selectedDomain) ∧
      context.Domain = selectedDomain ∧
      (updateActiveContext contexts config selectedDomain).Theme.ActiveContext = key :=
  updateActiveContext_scan contexts config selectedDomain h

/-- C2, amended, on the example of the specification: when `updateActiveContext`
enumerates the map as `ctxA, ctxB, ctxC`, choosing `prod-us` stops at the first
entry carrying it. -/
theorem updateActiveContext_first_match_witness :
    (∃ e ∈ exampleContexts, e.2.Domain = "prod-us") ∧
      ∃ before key context after,
        exampleContexts = before ++ (key, context) :: after ∧
        (∀ e ∈ before, e.2.Domain ≠ "prod-us") ∧
        context.Domain = "prod-us" ∧
        (updateActiveContext exampleContexts exampleConfig "prod-us").Theme.ActiveContext = key :=
  ⟨by decide, updateActiveContext_first_match exampleContexts exampleConfig "prod-us" (by decide)⟩

/-- C3: for every context set, every previous `ActiveContext` (the state `s` is
arbitrary) and every option `d` of `extractUniqueDomains`, confirming `d` hands to
`writeConfig` exactly one document, whose `ActiveContext` is a key of the context
set and whose entry at that key has `Domain` `d`, whatever the two enumerations
`rangeExtract` and `rangeUpdate` of the map are; in particular the scan of
`updateActiveContext` finds an entry. -/
theorem confirm_writes_valid_reference (w : World) (s : State) (selected : Int) (d : String)
    (hwf : ContextMap.WellFormed s.config.Theme.Contexts)
    (hE : w.rangeExtract.Perm s.config.Theme.Contexts)
    (hU : w.rangeUpdate.Perm s.config.Theme.Contexts)
    (hd : indexOption (extractUniqueDomains w.rangeExtract) selected = some d) :
    d ∈ extractUniqueDomains w.rangeExtract ∧
    (∃ e ∈ w.rangeUpdate, e.2.Domain = d) ∧
    ∃ doc context,
      writtenConfigs (handleEvent w (extractUniqueDomains w.rangeExtract) selected s
        (Event.key Key.Enter)).2.trace = writtenConfigs s.trace ++ [doc] ∧
      doc.Theme.Contexts = s.config.Theme.Contexts ∧
      doc.Theme.ActiveContext ∈ s.config.Theme.Contexts.map Prod.fst ∧
      ContextMap.lookup doc.Theme.Contexts doc.Theme.ActiveContext = some context ∧
      context.Domain = d := by
  have hmem : d ∈ extractUniqueDomains w.rangeExtract := by
    unfold indexOption at hd
    split at hd
    · simp at hd
    · exact List.get?_mem hd
  have hcarried : ∃ e ∈ w.rangeUpdate, e.2.Domain = d := by
    obtain ⟨e, he, hed⟩ := (mem_extractUniqueDomains _ _).1 hmem
    exact ⟨e, hU.mem_iff.2 (hE.mem_iff.1 he), hed⟩
  obtain ⟨before, key, context, after, hsplit, _, hdom, hkey⟩ :=
    updateActiveContext_scan w.rangeUpdate s.config d hcarried
  have hin : (key, context) ∈ s.config.Theme.Contexts := by
    apply hU.mem_iff.1
    rw [hsplit]
    simp
  have hframe := updateActiveContext_frame w.rangeUpdate s.config d
  refine ⟨hmem, hcarried, updateActiveContext w.rangeUpdate s.config d, context, ?_, hframe.1,
    ?_, ?_, hdom⟩
  · cases hw : w.writeErr <;>
      simp [handleEvent, hd, hw, writtenConfigs_append, writtenConfigs]
  · rw [hkey]
    exact List.mem_map_of_mem Prod.fst hin
  · rw [hframe.1, hkey]
    exact lookup_of_mem _ hwf key context hin

/-- C3 on the example of the specification, with a stale `ActiveContext`, extraction
enumerating `ctxA, ctxB, ctxC` and resolution enumerating `ctxC, ctxB, ctxA`:
confirming `prod-us` at cursor 0. -/
theorem confirm_writes_valid_reference_witness :
    indexOption (extractUniqueDomains exampleContexts) 0 = some "prod-us" ∧
    "prod-us" ∈ extractUniqueDomains exampleContexts ∧
    (∃ e ∈ exampleContexts.reverse, e.2.Domain = "prod-us") ∧
    ∃ doc context,
      writtenConfigs (handleEvent (exampleWorld exampleContexts.reverse [])
        (extractUniqueDomains exampleContexts) 0 exampleState
        (Event.key Key.Enter)).2.trace = writtenConfigs exampleState.trace ++ [doc] ∧
      doc.Theme.Contexts = exampleContexts ∧
      doc.Theme.ActiveContext ∈ exampleContexts.map Prod.fst ∧
      ContextMap.lookup doc.Theme.Contexts doc.Theme.ActiveContext = some context ∧
      context.Domain = "prod-us" :=
  ⟨by decide,
    confirm_writes_valid_reference (exampleWorld exampleContexts.reverse []) exampleState 0
      "prod-us" (by decide) (List.Perm.refl _) (by decide) (by decide)⟩


/-- C4: for every loaded document and every event sequence made of move-up and
move-down events followed by a cancel key (`Esc`, `Ctrl-C`) or an input-error event,
`Run` returns, the global `config` at loop exit is the document as loaded
(`ActiveContext` included) and `writeConfig` is never called. -/
theorem cancel_leaves_config_as_loaded (w : World) (moves rest : List Event) (t : Event)
    (hinit : w.initErr = none) (hread : w.readConfig.2 = none)
    (hev : w.events = moves ++ t :: rest) (hmoves : ∀ e ∈ moves, e.isMove = true)
    (ht : t.isCancelKey = true ∨ t.isError = true) :
    (rootCmdRun w State.init).1 = Flow.returned ∧
      (rootCmdRun w State.init).2.config = w.readConfig.1 ∧
      writtenConfigs (rootCmdRun w State.init).2.trace = [] := by
  have h := rootCmdRun_cancelled w moves rest t hinit hread hev
    (fun e he => isMove_keepsRunning e (hmoves e he)) ht
  exact ⟨h.1, h.2.1, h.2.2.2.2.1⟩

/-- C4 on the example document: down, up, then `Esc`. -/
theorem cancel_leaves_config_as_loaded_witness :
    (∀ e ∈ [Event.key Key.ArrowDown, Event.key Key.ArrowUp], e.isMove = true) ∧
      (Event.key Key.Esc).isCancelKey = true ∧
      (rootCmdRun (exampleWorld exampleContexts
        [Event.key Key.ArrowDown, Event.key Key.ArrowUp, Event.key Key.Esc]) State.init).1 =
          Flow.returned ∧
      (rootCmdRun (exampleWorld exampleContexts
        [Event.key Key.ArrowDown, Event.key Key.ArrowUp, Event.key Key.Esc]) State.init).2.config =
          exampleConfig ∧
      writtenConfigs (rootCmdRun (exampleWorld exampleContexts
        [Event.key Key.ArrowDown, Event.key Key.ArrowUp, Event.key Key.Esc]) State.init).2.trace =
          [] :=
  ⟨by decide, rfl,
    cancel_leaves_config_as_loaded
      (exampleWorld exampleContexts
        [Event.key Key.ArrowDown, Event.key Key.ArrowUp, Event.key Key.Esc])
      [Event.key Key.ArrowDown, Event.key Key.ArrowUp] [] (Event.key Key.Esc)
      rfl rfl rfl (by decide) (Or.inl rfl)⟩

/-- C5: for every option list of length `n` and every cursor `i` with
`0 ≤ i ≤ n - 1` (so the list is not empty), the move-up event takes the cursor to
`max (i - 1) 0` and the move-down event takes it to `min (i + 1) (n - 1)`, leaving
the state untouched; move-up at `0` and move-down at `n - 1` leave the cursor
where it is. -/
theorem cursor_moves_clamped (w : World) (options : List String) (s : State) (i : Int)
    (h0 : 0 ≤ i) (hn : i ≤ (options.length : Int) - 1) :
    handleEvent w options i s (Event.key Key.ArrowUp) = (Flow.next (max (i - 1) 0), s) ∧
      handleEvent w options i s (Event.key Key.ArrowDown) =
        (Flow.next (min (i + 1) ((options.length : Int) - 1)), s) ∧
      handleEvent w options 0 s (Event.key Key.ArrowUp) = (Flow.next 0, s) ∧
      handleEvent w options ((options.length : Int) - 1) s (Event.key Key.ArrowDown) =
        (Flow.next ((options.length : Int) - 1), s) := by
  refine ⟨?_, ?_, ?_, ?_⟩
  · simp only [handleEvent]
    split
    · rw [max_eq_left (by omega)]
    · rw [max_eq_right (by omega)]
      congr 2
      omega
  · simp only [handleEvent]
    split
    · rw [min_eq_left (by omega)]
    · rw [min_eq_right (by omega)]
      congr 2
      omega
  · simp [handleEvent]
  · simp [handleEvent]

/-- C5 on the two options of the example, at the last cursor position. -/
theorem cursor_moves_clamped_witness :
    (0 : Int) ≤ 1 ∧ (1 : Int) ≤ ((["prod-us", "prod-eu"] : List String).length : Int) - 1 ∧
      handleEvent (exampleWorld exampleContexts []) ["prod-us", "prod-eu"] 1 exampleState
        (Event.key Key.ArrowUp) = (Flow.next 0, exampleState) ∧
      handleEvent (exampleWorld exampleContexts []) ["prod-us", "prod-eu"] 1 exampleState
        (Event.key Key.ArrowDown) = (Flow.next 1, exampleState) :=
  ⟨by decide, by decide,
    (cursor_moves_clamped (exampleWorld exampleContexts []) ["prod-us", "prod-eu"] exampleState 1
      (by decide) (by decide)).1,
    (cursor_moves_clamped (exampleWorld exampleContexts []) ["prod-us", "prod-eu"] exampleState 1
      (by decide) (by decide)).2.1⟩

/-- C6 fails on the code: with an empty context set the option list is empty, and
the confirm key evaluates `options[0]` on it, which is out of range: `Run` panics
and the process crashes instead of ending in a cancellation.  The move-down branch
is guarded and keeps the cursor at 0, and the cancel key ends the same run with
nothing written. -/
theorem empty_options_confirm_panics :
    extractUniqueDomains (emptyWorld [Event.key Key.Enter]).rangeExtract = [] ∧
      indexOption [] 0 = none ∧
      (rootCmdRun (emptyWorld [Event.key Key.Enter]) State.init).1 = Flow.panicked ∧
      (main (emptyWorld [Event.key Key.Enter])).1 = Termination.crashed ∧
      (handleEvent (emptyWorld []) [] 0 State.init (Event.key Key.ArrowDown)).1 = Flow.next 0 ∧
      (main (emptyWorld [Event.key Key.Esc])).1 = Termination.success ∧
      writtenConfigs (main (emptyWorld [Event.key Key.Esc])).2.trace = [] :=
  ⟨by decide, by decide, by decide, by decide, by decide, by decide, rfl⟩

/-- C7 fails on the code for the empty-string domain: when the only entry has
domain `""` and the user confirms it, the document with `ActiveContext = "ctxA"` is
written, but `main` then reports no selection and does not call the
set-environment operation with `envA`; only the login operation runs.  On the
example document, confirming the non-empty `prod-us` reports it and calls the
set-environment operation with `envA`, then the login operation. -/
theorem empty_domain_confirm_skips_setEnv :
    extractUniqueDomains emptyDomainContexts = [""] ∧
      (main (emptyDomainWorld [Event.key Key.Enter])).1 = Termination.success ∧
      (main (emptyDomainWorld [Event.key Key.Enter])).2.selectedOption = "" ∧
      writtenConfigs (main (emptyDomainWorld [Event.key Key.Enter])).2.trace =
        [⟨⟨"ctxA", emptyDomainContexts⟩, []⟩] ∧
      (ContextMap.index emptyDomainContexts "ctxA").Env = "envA" ∧
      printed (main (emptyDomainWorld [Event.key Key.Enter])).2.trace = [] ∧
      commandsRun (main (emptyDomainWorld [Event.key Key.Enter])).2.trace =
        [Effect.runFDKLoginCommand] ∧
      printed (main (exampleWorld exampleContexts [Event.key Key.Enter])).2.trace =
        ["You selected: \x1b[32mprod-us\x1b[0m\n", "envA\n"] ∧
      commandsRun (main (exampleWorld exampleContexts [Event.key Key.Enter])).2.trace =
        [Effect.runSetEnv "envA", Effect.runFDKLoginCommand] :=
  ⟨by decide, by decide, by decide, rfl, by decide, by decide, rfl, by decide, rfl⟩

/-- C8 fails on the code: on the example document, an input-error event as the first
event ends the loop with the document as loaded, nothing written and nothing
selected, exactly like the `Esc` key; but the error arm of the `switch` leaves the
global `exit` false where the cancel arm sets it, so `main` goes on to call the
login operation after the input error and calls no operation after `Esc`. -/
theorem input_error_runs_login :
    (main (exampleWorld exampleContexts [Event.error "closed"])).2.config = exampleConfig ∧
      (main (exampleWorld exampleContexts [Event.key Key.Esc])).2.config = exampleConfig ∧
      writtenConfigs (main (exampleWorld exampleContexts [Event.error "closed"])).2.trace = [] ∧
      writtenConfigs (main (exampleWorld exampleContexts [Event.key Key.Esc])).2.trace = [] ∧
      (main (exampleWorld exampleContexts [Event.error "closed"])).2.exit = false ∧
      (main (exampleWorld exampleContexts [Event.key Key.Esc])).2.exit = true ∧
      commandsRun (main (exampleWorld exampleContexts [Event.error "closed"])).2.trace =
        [Effect.runFDKLoginCommand] ∧
      commandsRun (main (exampleWorld exampleContexts [Event.key Key.Esc])).2.trace = [] :=
  ⟨rfl, rfl, rfl, rfl, rfl, rfl, rfl, rfl⟩

/-- C9: for every run, every document handed to `writeConfig` has the `Contexts`
map and the `Partners` block of the loaded document: it differs from the loaded
document in at most the `ActiveContext` field. -/
theorem written_document_frame (w : World) (doc : Config)
    (hdoc : doc ∈ writtenConfigs (main w).2.trace) :
    doc.Theme.Contexts = w.readConfig.1.Theme.Contexts ∧
      doc.Partners = w.readConfig.1.Partners := by
  rw [main_writtenConfigs] at hdoc
  cases hexec : w.executeErr with
  | some err => simp [hexec] at hdoc
  | none =>
    cases hhelp : w.helpRequested with
    | true => simp [hexec, hhelp] at hdoc
    | false =>
      simp only [hexec, hhelp, Bool.false_eq_true, if_false] at hdoc
      rcases (rootCmdRun_confirm_shape w).2 with h | ⟨d, h, _⟩
      · rw [h] at hdoc; simp at hdoc
      · rw [h, List.mem_singleton] at hdoc
        rw [hdoc]
        exact updateActiveContext_frame _ _ _

/-- C9 on the example document: move down and confirm `prod-eu`. -/
theorem written_document_frame_witness :
    (updateActiveContext exampleContexts exampleConfig "prod-eu") ∈
        writtenConfigs (main (exampleWorld exampleContexts
          [Event.key Key.ArrowDown, Event.key Key.Enter])).2.trace ∧
      (updateActiveContext exampleContexts exampleConfig "prod-eu").Theme.ActiveContext = "ctxB" ∧
      (updateActiveContext exampleContexts exampleConfig "prod-eu").Theme.Contexts =
        exampleContexts ∧
      (updateActiveContext exampleContexts exampleConfig "prod-eu").Partners =
        exampleConfig.Partners :=
  have hmem : (updateActiveContext exampleContexts exampleConfig "prod-eu") ∈
      writtenConfigs (main (exampleWorld exampleContexts
        [Event.key Key.ArrowDown, Event.key Key.Enter])).2.trace :=
    List.mem_singleton.2 rfl
  ⟨hmem, by decide,
    (written_document_frame
      (exampleWorld exampleContexts [Event.key Key.ArrowDown, Event.key Key.Enter]) _ hmem).1,
    (written_document_frame
      (exampleWorld exampleContexts [Event.key Key.ArrowDown, Event.key Key.Enter]) _ hmem).2⟩

/-- C10: for every option list (a list without repetition) and every cursor `i`
within it, the confirm event at cursor `i` does not panic, sets the global
`selectedOption` to `options[i]`, which differs from `options[j]` for every other
index `j`, and passes that same string to `updateActiveContext`. -/
theorem confirm_selects_option_at_cursor (w : World) (options : List String) (s : State)
    (i : Nat) (hi : i < options.length) (hnodup : options.Nodup) :
    (handleEvent w options (i : Int) s (Event.key Key.Enter)).2.selectedOption = options[i] ∧
      (handleEvent w options (i : Int) s (Event.key Key.Enter)).2.config =
        updateActiveContext w.rangeUpdate s.config options[i] ∧
      (handleEvent w options (i : Int) s (Event.key Key.Enter)).1 ≠ Flow.panicked ∧
      ∀ (j : Nat) (hj : j < options.length), j ≠ i →
        (handleEvent w options (i : Int) s (Event.key Key.Enter)).2.selectedOption ≠ options[j] := by
  have hidx := indexOption_natCast options i hi
  have hsel : (handleEvent w options (i : Int) s (Event.key Key.Enter)).2.selectedOption
      = options[i] := by
    cases hw : w.writeErr <;> simp [handleEvent, hidx, hw]
  refine ⟨hsel, ?_, ?_, ?_⟩
  · cases hw : w.writeErr <;> simp [handleEvent, hidx, hw]
  · cases hw : w.writeErr <;> simp [handleEvent, hidx, hw]
  · intro j hj hji heq
    rw [hsel] at heq
    exact hji ((List.Nodup.getElem_inj_iff hnodup).1 heq).symm

/-- C10 on the two options of the example: confirming at cursor 1 selects
`prod-eu`. -/
theorem confirm_selects_option_at_cursor_witness :
    (extractUniqueDomains exampleContexts).Nodup ∧
      (handleEvent (exampleWorld exampleContexts []) (extractUniqueDomains exampleContexts)
        ((1 : Nat) : Int) exampleState (Event.key Key.Enter)).2.selectedOption = "prod-eu" :=
  ⟨by decide,
    (confirm_selects_option_at_cursor (exampleWorld exampleContexts [])
      (extractUniqueDomains exampleContexts) exampleState 1 (by decide) (by decide)).1⟩

/-- C11, as stated, fails: the example map, enumerated as `ctxA, ctxB, ctxC` by one
call and as `ctxB, ctxA, ctxC` by another, yields `prod-us, prod-eu` in the first
call and `prod-eu, prod-us` in the second. -/
theorem extractUniqueDomains_order_counterexample :
    exampleContexts.WellFormed ∧
      exampleShuffled.Perm exampleContexts ∧
      extractUniqueDomains exampleContexts = ["prod-us", "prod-eu"] ∧
      extractUniqueDomains exampleShuffled = ["prod-eu", "prod-us"] ∧
      extractUniqueDomains exampleContexts ≠ extractUniqueDomains exampleShuffled := by
  decide

/-- C11, amended: for every context set and any two enumerations of it by the
`range` statement, each of the two lists `extractUniqueDomains` returns holds
exactly the domains of the entries, each exactly once, so the two lists are
permutations of each other; and the two lists are identical if and only if the two
enumerations first encounter the domains in the same order, in particular when
they visit the entries' domains in the same order. -/
theorem extractUniqueDomains_stable_for_same_order (contexts : ContextMap)
    (r₁ r₂ : List (String × Context)) (h₁ : r₁.Perm contexts) (h₂ : r₂.Perm contexts) :
    (extractUniqueDomains r₁).Nodup ∧ (extractUniqueDomains r₂).Nodup ∧
      (∀ d : String, d ∈ extractUniqueDomains r₁ ↔ ∃ e ∈ contexts, e.2.Domain = d) ∧
      (∀ d : String, d ∈ extractUniqueDomains r₂ ↔ ∃ e ∈ contexts, e.2.Domain = d) ∧
      (extractUniqueDomains r₁).Perm (extractUniqueDomains r₂) ∧
      (extractUniqueDomains r₁ = extractUniqueDomains r₂ ↔
        ∀ a b : String,
          ((r₁.map fun e => e.2.Domain).indexOf a < (r₁.map fun e => e.2.Domain).indexOf b ↔
            (r₂.map fun e => e.2.Domain).indexOf a <
              (r₂.map fun e => e.2.Domain).indexOf b)) ∧
      ((r₁.map fun e => e.2.Domain) = (r₂.map fun e => e.2.Domain) →
        extractUniqueDomains r₁ = extractUniqueDomains r₂) := by
  have hmem : ∀ (r : List (String × Context)), r.Perm contexts →
      ∀ d : String, d ∈ extractUniqueDomains r ↔ ∃ e ∈ contexts, e.2.Domain = d := by
    intro r hr d
    rw [mem_extractUniqueDomains]
    constructor
    · rintro ⟨e, he, hd⟩; exact ⟨e, hr.mem_iff.1 he, hd⟩
    · rintro ⟨e, he, hd⟩; exact ⟨e, hr.mem_iff.2 he, hd⟩
  refine ⟨nodup_extractUniqueDomains r₁, nodup_extractUniqueDomains r₂, hmem r₁ h₁, hmem r₂ h₂,
    extractUniqueDomains_perm r₁ r₂ (h₁.trans h₂.symm), ?_,
    extractUniqueDomains_congr_domains r₁ r₂⟩
  constructor
  · intro heq a b
    rw [← indexOf_extractUniqueDomains_lt_iff r₁ a b,
      ← indexOf_extractUniqueDomains_lt_iff r₂ a b, heq]
  · intro hord
    apply eq_of_nodup_of_same_order _ _ (nodup_extractUniqueDomains r₁)
      (nodup_extractUniqueDomains r₂)
    · intro a
      rw [hmem r₁ h₁ a, hmem r₂ h₂ a]
    · intro a b
      rw [indexOf_extractUniqueDomains_lt_iff r₁ a b, indexOf_extractUniqueDomains_lt_iff r₂ a b]
      exact hord a b

/-- C11, amended, on the example map: the enumerations `ctxA, ctxB, ctxC` and
`ctxC, ctxB, ctxA` differ, visit the domains in the same order and yield the same
list, which holds no string twice. -/
theorem extractUniqueDomains_stable_for_same_order_witness :
    exampleContexts.reverse.Perm exampleContexts ∧
      exampleContexts ≠ exampleContexts.reverse ∧
      (extractUniqueDomains exampleContexts.reverse).Nodup ∧
      extractUniqueDomains exampleContexts = extractUniqueDomains exampleContexts.reverse :=
  ⟨by decide, by decide,
    (extractUniqueDomains_stable_for_same_order exampleContexts exampleContexts
      exampleContexts.reverse (List.Perm.refl _) (by decide)).2.1,
    (extractUniqueDomains_stable_for_same_order exampleContexts exampleContexts
      exampleContexts.reverse (List.Perm.refl _) (by decide)).2.2.2.2.2.2 (by decide)⟩

/-- C12: in every run in which a document is handed to `writeConfig` (the user
confirmed an option) and `writeConfig` returns an error, the process ends with
failure right after reporting the error through `log.Fatalf`, and neither the
set-environment operation nor the login operation is called. -/
theorem write_failure_aborts_before_commands (w : World) (err : String)
    (hw : w.writeErr = some err) (hconfirmed : writtenConfigs (main w).2.trace ≠ []) :
    (main w).1 = Termination.failure ∧
      commandsRun (main w).2.trace = [] ∧
      ∃ before doc, (main w).2.trace = before ++
        [Effect.writeConfig ".fdk/context.json" doc,
          Effect.logFatalf ("failed to write config: " ++ err)] := by
  rw [main_writtenConfigs] at hconfirmed
  cases hexec : w.executeErr with
  | some e => simp [hexec] at hconfirmed
  | none =>
    cases hhelp : w.helpRequested with
    | true => simp [hexec, hhelp] at hconfirmed
    | false =>
      simp only [hexec, hhelp, Bool.false_eq_true, if_false] at hconfirmed
      obtain ⟨hcmd, hwr⟩ := rootCmdRun_confirm_shape w
      rcases hwr with hnil | ⟨d, _, _, hend⟩
      · exact absurd hnil hconfirmed
      · rcases hend with ⟨hnone, _⟩ | ⟨err', before, hsome, hflow, htrace⟩
        · rw [hw] at hnone
          simp at hnone
        · have herr : err' = err := by
            rw [hw] at hsome
            exact (Option.some.inj hsome).symm
          subst herr
          rw [main_of_run w hexec hhelp]
          rcases hres : rootCmdRun w State.init with ⟨flow, s⟩
          rw [hres] at hcmd hflow htrace
          simp only at hcmd hflow htrace
          subst hflow
          exact ⟨rfl, hcmd, before, _, htrace⟩

/-- C12 on the example document: confirming the first option when the write
fails. -/
theorem write_failure_aborts_before_commands_witness :
    (writeFailureWorld [Event.key Key.Enter]).writeErr = some "permission denied" ∧
      (main (writeFailureWorld [Event.key Key.Enter])).1 = Termination.failure ∧
      commandsRun (main (writeFailureWorld [Event.key Key.Enter])).2.trace = [] :=
  have h := write_failure_aborts_before_commands (writeFailureWorld [Event.key Key.Enter])
    "permission denied" rfl
    (by
      rw [show writtenConfigs (main (writeFailureWorld [Event.key Key.Enter])).2.trace =
        [updateActiveContext exampleContexts exampleConfig "prod-us"] from rfl]
      exact List.cons_ne_nil _ _)
  ⟨rfl, h.1, h.2.1⟩

/-- C13: for every non-empty context set, every enumeration of it and every finite
sequence of events, every cursor the loop goes through from the initial cursor 0
lies in `[0, len(options) - 1]` and indexes an option, so that neither the loop nor
`Run` panics on `options[selected]`. -/
theorem cursor_stays_in_range (w : World) (contexts : ContextMap) (events : List Event)
    (s : State) (hne : contexts ≠ []) (hperm : w.rangeExtract.Perm contexts) :
    (∀ c ∈ cursorsVisited w (extractUniqueDomains w.rangeExtract) events 0 s,
        0 ≤ c ∧ c ≤ ((extractUniqueDomains w.rangeExtract).length : Int) - 1 ∧
        ∃ d, indexOption (extractUniqueDomains w.rangeExtract) c = some d) ∧
      (eventLoop w (extractUniqueDomains w.rangeExtract) events 0 s).1 ≠ Flow.panicked ∧
      (rootCmdRun w State.init).1 ≠ Flow.panicked := by
  have hrange : w.rangeExtract ≠ [] := by
    intro hnil
    rw [hnil] at hperm
    exact hne (List.Perm.eq_nil hperm.symm)
  have hopts := extractUniqueDomains_ne_nil w.rangeExtract hrange
  have hlen : (0 : Int) ≤ ((extractUniqueDomains w.rangeExtract).length : Int) - 1 := by
    have : 0 < (extractUniqueDomains w.rangeExtract).length := List.length_pos.2 hopts
    omega
  refine ⟨?_, eventLoop_not_panicked w _ events 0 s (le_refl _) hlen, ?_⟩
  · intro c hc
    have hb := cursorsVisited_bounds w _ events 0 s (le_refl _) hlen c hc
    exact ⟨hb.1, hb.2, indexOption_of_bounds _ c hb.1 hb.2⟩
  · unfold rootCmdRun
    cases hinit : w.initErr with
    | some err => simp
    | none =>
      cases hread : w.readConfig.2 with
      | some err => simp
      | none =>
        simp only
        have hnp := eventLoop_not_panicked w (extractUniqueDomains w.rangeExtract) w.events 0
          ({ (State.init.emit Effect.termboxInit).emit (Effect.readFile ".fdk/context.json")
            with config := w.readConfig.1 } : State) (le_refl _) hlen
        rcases hres : eventLoop w (extractUniqueDomains w.rangeExtract) w.events 0
          ({ (State.init.emit Effect.termboxInit).emit (Effect.readFile ".fdk/context.json")
            with config := w.readConfig.1 } : State) with ⟨flow, s₃⟩
        rw [hres] at hnp
        cases flow <;> simp_all

/-- C13 on the example document: down, down, up, then confirm. -/
theorem cursor_stays_in_range_witness :
    exampleContexts ≠ [] ∧
      cursorsVisited (exampleWorld exampleContexts []) (extractUniqueDomains exampleContexts)
        [Event.key Key.ArrowDown, Event.key Key.ArrowDown, Event.key Key.ArrowUp,
          Event.key Key.Enter] 0 exampleState = [0, 1, 1, 0] ∧
      (∀ c ∈ cursorsVisited (exampleWorld exampleContexts [])
          (extractUniqueDomains (exampleWorld exampleContexts []).rangeExtract)
          [Event.key Key.ArrowDown, Event.key Key.ArrowDown, Event.key Key.ArrowUp,
            Event.key Key.Enter] 0 exampleState,
        0 ≤ c ∧
        c ≤ ((extractUniqueDomains (exampleWorld exampleContexts []).rangeExtract).length : Int)
          - 1 ∧
        ∃ d, indexOption (extractUniqueDomains (exampleWorld exampleContexts []).rangeExtract) c
          = some d) :=
  ⟨by decide, by decide,
    (cursor_stays_in_range (exampleWorld exampleContexts []) exampleContexts
      [Event.key Key.ArrowDown, Event.key Key.ArrowDown, Event.key Key.ArrowUp,
        Event.key Key.Enter] exampleState (by decide) (List.Perm.refl _)).1⟩

/-- C14 fails on the code: when `readConfig` fails, and when `writeConfig` fails
after a confirm, `log.Fatalf` ends the process with the display surface acquired
and never released: `termbox.Init` is the only surface call of the run.  The
deferred `termbox.Close` runs on the confirm, cancel and input-error paths. -/
theorem fatal_paths_skip_close :
    (main (readFailureWorld [])).2.trace =
        [Effect.termboxInit, Effect.readFile ".fdk/context.json",
          Effect.logFatalf "failed to read config: no such file or directory"] ∧
      (main (readFailureWorld [])).1 = Termination.failure ∧
      surfaceCalls (main (readFailureWorld [])).2.trace = [Effect.termboxInit] ∧
      (main (writeFailureWorld [Event.key Key.Enter])).1 = Termination.failure ∧
      surfaceCalls (main (writeFailureWorld [Event.key Key.Enter])).2.trace =
        [Effect.termboxInit] ∧
      surfaceCalls (main (exampleWorld exampleContexts [Event.key Key.Enter])).2.trace =
        [Effect.termboxInit, Effect.termboxClose] ∧
      surfaceCalls (main (exampleWorld exampleContexts [Event.key Key.Esc])).2.trace =
        [Effect.termboxInit, Effect.termboxClose] ∧
      surfaceCalls (main (exampleWorld exampleContexts [Event.error "closed"])).2.trace =
        [Effect.termboxInit, Effect.termboxClose] :=
  ⟨rfl, by decide, rfl, by decide, rfl, rfl, rfl, rfl⟩

/-- C15, as stated, fails: no entry of the example map has domain `staging`, and
resolving `staging` reports nothing: `updateActiveContext` returns with the
document unchanged, and the confirm branch hands that document to `writeConfig`
and returns normally. -/
theorem resolution_not_found_counterexample :
    (∀ e ∈ exampleContexts, e.2.Domain ≠ "staging") ∧
      updateActiveContext exampleContexts exampleConfig "staging" = exampleConfig ∧
      (handleEvent (exampleWorld exampleContexts []) ["staging"] 0 exampleState
        (Event.key Key.Enter)).1 = Flow.returned ∧
      (handleEvent (exampleWorld exampleContexts []) ["staging"] 0 exampleState
        (Event.key Key.Enter)).2.trace =
          [Effect.writeConfig ".fdk/context.json" exampleConfig] :=
  ⟨by decide, rfl, by decide, rfl⟩

/-- C15, amended: for every context set and every chosen domain that is the
`Domain` of no entry, `updateActiveContext` reports nothing and leaves the
document, `ActiveContext` included, as it was; the confirm branch then hands that
unchanged document to `writeConfig` and ends as after any other write: it returns
when the write succeeds.  The case does not arise from the loop: when both `range`
statements enumerate the same map, every option `Run` passes to the loop is the
`Domain` of an entry `updateActiveContext` visits, so the chosen domain is not
among these options, and whenever `Run` hands a document to `writeConfig` the
selected option is carried by an entry. -/
theorem resolution_not_found_is_silent (w : World) (options : List String) (selected : Int)
    (s : State) (d : String) (hidx : indexOption options selected = some d)
    (hnone : ∀ e ∈ w.rangeUpdate, e.2.Domain ≠ d) :
    updateActiveContext w.rangeUpdate s.config d = s.config ∧
      (handleEvent w options selected s (Event.key Key.Enter)).2.config = s.config ∧
      writtenConfigs (handleEvent w options selected s (Event.key Key.Enter)).2.trace =
        writtenConfigs s.trace ++ [s.config] ∧
      (handleEvent w options selected s (Event.key Key.Enter)).1 ≠ Flow.panicked ∧
      (w.writeErr = none →
        (handleEvent w options selected s (Event.key Key.Enter)).1 = Flow.returned) ∧
      (∀ contexts : ContextMap, w.rangeExtract.Perm contexts → w.rangeUpdate.Perm contexts →
        (∀ d' ∈ extractUniqueDomains w.rangeExtract, ∃ e ∈ w.rangeUpdate, e.2.Domain = d') ∧
        d ∉ extractUniqueDomains w.rangeExtract ∧
        (writtenConfigs (rootCmdRun w State.init).2.trace = [] ∨
          ∃ d', (∃ e ∈ w.rangeUpdate, e.2.Domain = d') ∧
            (rootCmdRun w State.init).2.selectedOption = d' ∧
            writtenConfigs (rootCmdRun w State.init).2.trace =
              [updateActiveContext w.rangeUpdate w.readConfig.1 d'])) := by
  have hsame := updateActiveContext_of_not_carried w.rangeUpdate s.config d hnone
  refine ⟨hsame, ?_, ?_, ?_, ?_, ?_⟩
  · cases hw : w.writeErr <;> simp [handleEvent, hidx, hw, hsame]
  · cases hw : w.writeErr <;>
      simp [handleEvent, hidx, hw, hsame, writtenConfigs_append, writtenConfigs_cons,
        writtenConfigs_nil]
  · cases hw : w.writeErr <;> simp [handleEvent, hidx, hw]
  · intro hw
    simp [handleEvent, hidx, hw]
  · intro contexts hE hU
    have hcarried : ∀ d' ∈ extractUniqueDomains w.rangeExtract,
        ∃ e ∈ w.rangeUpdate, e.2.Domain = d' := by
      intro d' hd'
      obtain ⟨e, he, hed⟩ := (mem_extractUniqueDomains _ _).1 hd'
      exact ⟨e, hU.mem_iff.2 (hE.mem_iff.1 he), hed⟩
    refine ⟨hcarried, ?_, ?_⟩
    · intro hd
      obtain ⟨e, he, hed⟩ := hcarried d hd
      exact hnone e he hed
    · have h0 : writtenConfigs State.init.trace = [] := rfl
      rcases rootCmdRun_effect w State.init with h | ⟨_, _, d', hd', hsel, _, hwr⟩
      · left
        rw [h, h0]
      · right
        rw [h0, List.nil_append] at hwr
        exact ⟨d', hcarried d' hd', hsel, hwr⟩

/-- C15, amended, on the example document: the domain `qa` is carried by no entry
and is not among the options of the run. -/
theorem resolution_not_found_is_silent_witness :
    indexOption ["qa"] 0 = some "qa" ∧
      (∀ e ∈ (exampleWorld exampleContexts []).rangeUpdate, e.2.Domain ≠ "qa") ∧
      updateActiveContext exampleContexts exampleState.config "qa" = exampleState.config ∧
      (handleEvent (exampleWorld exampleContexts []) ["qa"] 0 exampleState
        (Event.key Key.Enter)).2.config = exampleState.config ∧
      "qa" ∉ extractUniqueDomains (exampleWorld exampleContexts []).rangeExtract :=
  ⟨by decide, by decide,
    (resolution_not_found_is_silent (exampleWorld exampleContexts []) ["qa"] 0 exampleState
      "qa" (by decide) (by decide)).1,
    (resolution_not_found_is_silent (exampleWorld exampleContexts []) ["qa"] 0 exampleState
      "qa" (by decide) (by decide)).2.1,
    ((resolution_not_found_is_silent (exampleWorld exampleContexts []) ["qa"] 0 exampleState
      "qa" (by decide) (by decide)).2.2.2.2.2 exampleContexts (List.Perm.refl _)
        (List.Perm.refl _)).2.1⟩

/-- C16: for every option list and every cursor `i` within it, the frame drawn by
`printOptions` shows option `k` on row `k` from column 0 on, for every `k`: with
the marker `"> "` and the emphasis on row `i`, with two blanks and the default
attribute on every other row, and nothing on any further row; and the option on
the marked row is the one the confirm event selects in that state. -/
theorem printOptions_marks_cursor_row (w : World) (s : State) (options : List String)
    (i : Nat) (hi : i < options.length) :
    (∀ (k : Nat) (hk : k < options.length),
        rowCells (k : Int) (printOptions options (i : Int)) =
          if k = i then
            textCells 0 Attribute.ColorGreenBold Attribute.ColorDefault
              ("> " ++ options[k]).toList
          else
            textCells 0 Attribute.ColorDefault Attribute.ColorDefault
              ("  " ++ options[k]).toList) ∧
      (∀ y : Int, (y < 0 ∨ (options.length : Int) ≤ y) →
        rowCells y (printOptions options (i : Int)) = []) ∧
      (handleEvent w options (i : Int) (s.emitAll (printOptions options (i : Int)))
        (Event.key Key.Enter)).2.selectedOption = options[i] := by
  refine ⟨?_, ?_, ?_⟩
  · intro k hk
    have h := rowCells_printOptionsLoop (i : Int) options 0 k hk
    simp only [zero_add] at h
    rw [rowCells_printOptions, h, rowCells_printOption_self]
    simp only [Nat.cast_inj]
  · intro y hy
    rw [rowCells_printOptions]
    rcases hy with hy | hy
    · exact rowCells_printOptionsLoop_above (i : Int) y options 0 hy
    · exact rowCells_printOptionsLoop_below (i : Int) y options 0 (by omega)
  · have hidx := indexOption_natCast options i hi
    cases hw : w.writeErr <;> simp [handleEvent, hidx, hw]

/-- C16 on the two options of the example, with the cursor on the second. -/
theorem printOptions_marks_cursor_row_witness :
    rowCells ((1 : Nat) : Int) (printOptions ["prod-us", "prod-eu"] ((1 : Nat) : Int)) =
        textCells 0 Attribute.ColorGreenBold Attribute.ColorDefault "> prod-eu".toList ∧
      rowCells ((0 : Nat) : Int) (printOptions ["prod-us", "prod-eu"] ((1 : Nat) : Int)) =
        textCells 0 Attribute.ColorDefault Attribute.ColorDefault "  prod-us".toList :=
  ⟨(printOptions_marks_cursor_row (exampleWorld exampleContexts []) exampleState
      ["prod-us", "prod-eu"] 1 (by decide)).1 1 (by decide),
    (printOptions_marks_cursor_row (exampleWorld exampleContexts []) exampleState
      ["prod-us", "prod-eu"] 1 (by decide)).1 0 (by decide)⟩

/-- C17: for every run of the loop, on every finite event sequence, from every
cursor and state: either the document and the documents written are as they were,
or the loop ended on a confirm event that follows only events that keep the loop
running: then the document was updated once, `writeConfig` was called once, and
that call is the last call of the loop (but for the report of its failure), which
returns or exits right after it.  In a whole run at most one document is
written. -/
theorem document_written_at_most_once (w : World) (options : List String)
    (events : List Event) (selected : Int) (s : State) :
    (((eventLoop w options events selected s).2.config = s.config ∧
        writtenConfigs (eventLoop w options events selected s).2.trace =
          writtenConfigs s.trace) ∨
      (∃ (before rest : List Event) (selected' : Int) (d : String) (frames tail : List Effect),
        events = before ++ Event.key Key.Enter :: rest ∧
        (∀ e ∈ before, e.keepsRunning = true) ∧
        indexOption options selected' = some d ∧
        (∀ e ∈ frames, e.isDraw = true) ∧
        (eventLoop w options events selected s).2.config =
          updateActiveContext w.rangeUpdate s.config d ∧
        writtenConfigs (eventLoop w options events selected s).2.trace =
          writtenConfigs s.trace ++ [updateActiveContext w.rangeUpdate s.config d] ∧
        (eventLoop w options events selected s).2.trace =
          s.trace ++ frames ++
            Effect.writeConfig ".fdk/context.json"
              (updateActiveContext w.rangeUpdate s.config d) :: tail ∧
        ((tail = [] ∧ (eventLoop w options events selected s).1 = Flow.returned) ∨
          (∃ err, tail = [Effect.logFatalf ("failed to write config: " ++ err)] ∧
            (eventLoop w options events selected s).1 = Flow.fatal)))) ∧
      (writtenConfigs (main w).2.trace).length ≤ 1 := by
  constructor
  · rcases eventLoop_confirm_shape w options events selected s with
      ⟨hc, _, hw, _⟩ |
      ⟨before, rest, selected', d, frames, tail, hsplit, hb, hidx, hdraw, _, hconf, _, htrace,
        hend⟩
    · exact Or.inl ⟨hc, hw⟩
    · right
      refine ⟨before, rest, selected', d, frames, tail, hsplit, hb, hidx, hdraw, hconf, ?_,
        htrace, ?_⟩
      · rw [htrace]
        rcases hend with ⟨_, htail, _⟩ | ⟨err, _, htail, _⟩ <;> subst htail <;>
          simp [writtenConfigs_append, writtenConfigs_cons, writtenConfigs_nil,
            writtenConfigs_of_isDraw _ hdraw]
      · rcases hend with ⟨_, htail, hflow⟩ | ⟨err, _, htail, hflow⟩
        · exact Or.inl ⟨htail, hflow⟩
        · exact Or.inr ⟨err, htail, hflow⟩
  · rw [main_writtenConfigs]
    cases w.executeErr with
    | some err => simp
    | none =>
      cases w.helpRequested with
      | true => simp
      | false =>
        rcases (rootCmdRun_confirm_shape w).2 with h | ⟨d, h, _⟩ <;> simp [h]

/-- C18: for every context set and any two enumerations of its entries, the two
lists `extractUniqueDomains` returns are permutations of each other: they have the
same length and hold the same domains. -/
theorem extractUniqueDomains_same_options (contexts : ContextMap)
    (r₁ r₂ : List (String × Context)) (h₁ : r₁.Perm contexts) (h₂ : r₂.Perm contexts) :
    (extractUniqueDomains r₁).Perm (extractUniqueDomains r₂) ∧
      (extractUniqueDomains r₁).length = (extractUniqueDomains r₂).length ∧
      (∀ d : String, d ∈ extractUniqueDomains r₁ ↔ d ∈ extractUniqueDomains r₂) ∧
      (∀ d : String, d ∈ extractUniqueDomains r₁ ↔ ∃ e ∈ contexts, e.2.Domain = d) := by
  have hperm := extractUniqueDomains_perm r₁ r₂ (h₁.trans h₂.symm)
  refine ⟨hperm, hperm.length_eq, fun d => hperm.mem_iff, ?_⟩
  intro d
  rw [mem_extractUniqueDomains]
  constructor
  · rintro ⟨e, he, hd⟩; exact ⟨e, h₁.mem_iff.1 he, hd⟩
  · rintro ⟨e, he, hd⟩; exact ⟨e, h₁.mem_iff.2 he, hd⟩

/-- C18 on the example map, enumerated as `ctxA, ctxB, ctxC` and as
`ctxB, ctxA, ctxC`. -/
theorem extractUniqueDomains_same_options_witness :
    exampleShuffled.Perm exampleContexts ∧
      (extractUniqueDomains exampleContexts).Perm (extractUniqueDomains exampleShuffled) ∧
      (extractUniqueDomains exampleContexts).length =
        (extractUniqueDomains exampleShuffled).length :=
  ⟨by decide,
    (extractUniqueDomains_same_options exampleContexts exampleContexts exampleShuffled
      (List.Perm.refl _) (by decide)).1,
    (extractUniqueDomains_same_options exampleContexts exampleContexts exampleShuffled
      (List.Perm.refl _) (by decide)).2.1⟩

end Cfdk
